import Mathlib

/-! # HTTP/1.0 origin server (`Lab 2/Lab2-files/Lab2/http_server/http_server.c`)

A shallow embedding of the request-target logic of the server: the URI guard
`bad_uri`, the in-place percent decoder `url_decode_inplace`, the query lookup
`get_qparam`, the UDP receive loop of `udp_fetch_file`, the static path
resolver `mapToPath`, the MIME table `guess_mime`, and the request handler of
`main` that ties them together.

Conventions.
* A C `char` is represented by its unsigned value, a `Nat` below 256.
* A C string is represented by the list of its bytes before the terminating
  NUL.  A buffer that is read through a pointer (the decoder works in place)
  is the list of all its bytes, terminator included; reading past what the
  list holds yields 0.
* System calls (`recv`, `recvfrom`, `stat`, `open`, `realloc`) are inputs of
  the model: their results are parameters of the functions that use them.
-/

namespace HttpServer

/-! ## Bytes and C strings -/

/-- The bytes of a string literal of the source. -/
def bytes_of (s : String) : List Nat := s.toList.map Char.toNat

/-- A list of bytes is the content of a C string when no byte of it is NUL. -/
def NoNul (s : List Nat) : Prop := ∀ b ∈ s, b ≠ 0

instance (s : List Nat) : Decidable (NoNul s) := by
  unfold NoNul; infer_instance

/-- The C string a buffer holds: its bytes before the first NUL. -/
def cstring (buf : List Nat) : List Nat := buf.takeWhile (fun b => b != 0)

/-- The libc `strcmp`: the difference of the first pair of bytes that differ
(the terminator counts as byte 0), and 0 when there is none. -/
def strcmp : List Nat → List Nat → Int
  | [], [] => 0
  | [], b :: _ => 0 - (b : Int)
  | a :: _, [] => (a : Int)
  | a :: as, b :: bs => if a = b then strcmp as bs else (a : Int) - (b : Int)

/-- The libc `strstr`: the tail of `hay` at the first occurrence of `needle`,
`none` for `NULL`. -/
def strstr : List Nat → List Nat → Option (List Nat)
  | [], needle => if needle = [] then some [] else none
  | h :: t, needle =>
    if needle.isPrefixOf (h :: t) then some (h :: t) else strstr t needle

/-- The libc `strchr` for a non-NUL byte: the tail of `s` at the first
occurrence of `c`. -/
def strchr : List Nat → Nat → Option (List Nat)
  | [], _ => none
  | h :: t, c => if h = c then some (h :: t) else strchr t c

/-- The libc `strrchr` for a non-NUL byte: the tail of `s` at the last
occurrence of `c`. -/
def strrchr : List Nat → Nat → Option (List Nat)
  | [], _ => none
  | h :: t, c =>
    match strrchr t c with
    | some r => some r
    | none => if h = c then some (h :: t) else none

/-! ## `bad_uri` -/

/-- Source `bad_uri`: 1 is bad, 0 is ok.
`uri[0]` of the empty string is its terminator. -/
def bad_uri (uri : List Nat) : Int :=
  if uri.getD 0 0 ≠ '/'.toNat then 1
  else if (strstr uri (bytes_of "/../")).isSome then 1
  else
    let n := uri.length
    if n ≥ 3 ∧ strcmp (uri.drop (n - 3)) (bytes_of "/..") = 0 then 1
    else 0


/-! ## `url_decode_inplace` -/

/-- The state of the loop of `url_decode_inplace`: the buffer `s` and the
offsets of the read pointer `r` and of the write pointer `w` in it. -/
structure DecodeState where
  buf : List Nat
  r : Nat
  w : Nat
deriving DecidableEq, Repr

/-- One turn of the loop: either the loop goes on in a new state, or the
function returns `rc` and leaves the buffer as `buf`. -/
inductive DecodeStep where
  | next (st : DecodeState)
  | ret (rc : Int) (buf : List Nat)
deriving DecidableEq, Repr

/-- The value of a hexadecimal digit, as the two `if` chains of the source
compute `hi` and `lo`; `none` where the source does `return -1`. -/
def hex_value (h : Nat) : Option Nat :=
  if '0'.toNat ≤ h ∧ h ≤ '9'.toNat then some (h - '0'.toNat)
  else if 'A'.toNat ≤ h ∧ h ≤ 'F'.toNat then some (10 + (h - 'A'.toNat))
  else if 'a'.toNat ≤ h ∧ h ≤ 'f'.toNat then some (10 + (h - 'a'.toNat))
  else none

/-- The body of `while (*r) { ... }` together with the exit `*w = 0; return 0`. -/
def url_decode_step (st : DecodeState) : DecodeStep :=
  let c := st.buf.getD st.r 0
  if c = 0 then .ret 0 (st.buf.set st.w 0)
  else if c = '+'.toNat then
    .next ⟨st.buf.set st.w ' '.toNat, st.r + 1, st.w + 1⟩
  else if c = '%'.toNat ∧ st.buf.getD (st.r + 1) 0 ≠ 0 ∧ st.buf.getD (st.r + 2) 0 ≠ 0 then
    match hex_value (st.buf.getD (st.r + 1) 0) with
    | none => .ret (-1) st.buf
    | some hi =>
      match hex_value (st.buf.getD (st.r + 2) 0) with
      | none => .ret (-1) st.buf
      | some lo => .next ⟨st.buf.set st.w (((hi <<< 4) ||| lo) % 256), st.r + 3, st.w + 1⟩
  else .next ⟨st.buf.set st.w c, st.r + 1, st.w + 1⟩

/-- The loop, run for at most `fuel` turns; `none` when the fuel runs out. -/
def url_decode_run : Nat → DecodeState → Option (Int × List Nat)
  | 0, _ => none
  | fuel + 1, st =>
    match url_decode_step st with
    | .ret rc buf => some (rc, buf)
    | .next st1 => url_decode_run fuel st1

/-- Source `url_decode_inplace(s)`: the return code and the buffer it leaves.
Every turn moves `r` forward, so one turn per byte and one more suffice. -/
def url_decode_inplace (s : List Nat) : Option (Int × List Nat) :=
  url_decode_run (s.length + 1) ⟨s, 0, 0⟩

/-- The state of the loop after `n` turns, `none` once the function has returned. -/
def url_decode_state : Nat → DecodeState → Option DecodeState
  | 0, st => some st
  | n + 1, st =>
    match url_decode_step st with
    | .ret _ _ => none
    | .next st1 => url_decode_state n st1

/-- The bytes the decoder writes for a C string, read left to right; `none`
where it returns -1.  A specification of the loop, used in the proofs. -/
def url_decoded : List Nat → Option (List Nat)
  | [] => some []
  | c :: h :: l :: rest =>
    if c = '+'.toNat then (url_decoded (h :: l :: rest)).map (' '.toNat :: ·)
    else if c = '%'.toNat then
      match hex_value h, hex_value l with
      | some hi, some lo => (url_decoded rest).map ((((hi <<< 4) ||| lo) % 256) :: ·)
      | _, _ => none
    else (url_decoded (h :: l :: rest)).map (c :: ·)
  | c :: rest =>
    if c = '+'.toNat then (url_decoded rest).map (' '.toNat :: ·)
    else (url_decoded rest).map (c :: ·)

/-- The loop state in which `out` has been written, `gap` lies between the
write and the read pointer, and `t` is still to be read. -/
def decode_at (out gap t : List Nat) : DecodeState :=
  ⟨out ++ (gap ++ t), out.length + gap.length, out.length⟩

/-- What a run of the loop yields, measured against the specification. -/
def RunsTo (res : Option (Int × List Nat)) (out : List Nat) : Option (List Nat) → Prop
  | some d => ∃ tail, res = some (0, out ++ (d ++ 0 :: tail))
  | none => ∃ b, res = some (-1, b)

/-- A hexadecimal digit, upper or lower case. -/
def IsHexDigit (c : Nat) : Prop := c ∈ bytes_of "0123456789ABCDEFabcdef"

instance (c : Nat) : Decidable (IsHexDigit c) := by
  unfold IsHexDigit; infer_instance

/-- The string holds a complete but invalid escape: a `%` with two characters
after it, one of which is not a hexadecimal digit. -/
def HasBadEscape (s : List Nat) : Prop :=
  ∃ i < s.length, i + 2 < s.length ∧ s.getD i 0 = '%'.toNat ∧
    ¬ (IsHexDigit (s.getD (i + 1) 0) ∧ IsHexDigit (s.getD (i + 2) 0))

instance (s : List Nat) : Decidable (HasBadEscape s) := by
  unfold HasBadEscape; infer_instance

/-- The string holds a truncated escape: a `%` with fewer than two characters
after it. -/
def HasTruncatedEscape (s : List Nat) : Prop :=
  ∃ i < s.length, s.getD i 0 = '%'.toNat ∧ s.length ≤ i + 2

instance (s : List Nat) : Decidable (HasTruncatedEscape s) := by
  unfold HasTruncatedEscape; infer_instance

/-- Every `%` of the string is followed by two hexadecimal digits. -/
def WellEscaped (s : List Nat) : Prop :=
  ∀ i < s.length, s.getD i 0 = '%'.toNat →
    i + 2 < s.length ∧ IsHexDigit (s.getD (i + 1) 0) ∧ IsHexDigit (s.getD (i + 2) 0)

instance (s : List Nat) : Decidable (WellEscaped s) := by
  unfold WellEscaped; infer_instance

/-- The character of the hexadecimal digit `d`, in upper or in lower case. -/
def hex_digit_char (upper : Bool) (d : Nat) : Nat :=
  (bytes_of (if upper then "0123456789ABCDEF" else "0123456789abcdef")).getD d 0

/-- URL form of a byte sequence, as the round-trip property words it (the
server has no encoder of its own): a space is written `+`; `+`, `%` and the
bytes picked by `escape` are written `%` and their two hexadecimal digits; the
remaining bytes are left literal. -/
def spec_url_encode (escape : Nat → Bool) (upper : Bool) : List Nat → List Nat
  | [] => []
  | b :: t =>
    (if b = ' '.toNat then ['+'.toNat]
     else if b = '+'.toNat ∨ b = '%'.toNat ∨ escape b = true then
       ['%'.toNat, hex_digit_char upper (b / 16), hex_digit_char upper (b % 16)]
     else [b]) ++ spec_url_encode escape upper t

/-! ## `get_qparam` -/

/-- The inner loop and the step after it,
`while (*p && *p != '&') p++; if (*p == '&') p++;`: the text after the next `&`. -/
def skip_param : List Nat → List Nat
  | [] => []
  | c :: cs => if c = '&'.toNat then cs else skip_param cs

/-- The copy loop `while (*p && *p != '&' && i + 1 < cap) out[i++] = *p++;`
started with `i` bytes in `out`: the bytes it appends. -/
def copy_value (cap : Nat) : List Nat → Nat → List Nat
  | [], _ => []
  | c :: cs, i => if c ≠ '&'.toNat ∧ i + 1 < cap then c :: copy_value cap cs (i + 1) else []

/-- The loop `while (*p) { ... }` of `get_qparam`, run for at most `fuel`
turns; `none` when the fuel runs out, `some none` for `return NULL`. -/
def get_qparam_loop (key : List Nat) (cap : Nat) : Nat → List Nat → Option (Option (List Nat))
  | 0, _ => none
  | fuel + 1, p =>
    if p = [] then some none
    else if key.isPrefixOf p ∧ p.getD key.length 0 = '='.toNat then
      some (some (copy_value cap (p.drop (key.length + 1)) 0))
    else get_qparam_loop key cap fuel (skip_param p)

/-- Source `get_qparam(uri, key, out, cap)`: the string left in `out`, or
`NULL`.  Every turn of the loop moves `p` forward, so one turn per byte of the
query and one more suffice. -/
def get_qparam (uri key : List Nat) (cap : Nat) : Option (Option (List Nat)) :=
  match strchr uri '?'.toNat with
  | none => some none
  | some questionMark =>
    get_qparam_loop key cap (questionMark.length + 1) (questionMark.drop 1)

/-! ## `udp_fetch_file` -/

/-- The chunk size `UDP_CHUNK`, the size of the receive buffer `pkt`. -/
def UDP_CHUNK : Nat := 4096

/-- What the system does for one call of `udp_fetch_file`: whether `socket`,
`sendto` and `malloc` succeed, whether `realloc` to a given capacity
succeeds, and what the successive `recvfrom` calls deliver (`none` for a
negative return; once the list is used up nothing arrives and the receive
timeout makes `recvfrom` fail). -/
structure UdpEnv where
  socket_ok : Bool
  sendto_ok : Bool
  malloc_ok : Bool
  realloc_ok : Nat → Bool
  datagrams : List (Option (List Nat))

/-- The receive loop `for (;;) { ... }` with `buf[0..len)` as `buf` and the
capacity `cap`: the return code and the bytes handed back in `*out`
(`*outlen` is their number; nothing is handed back on failure). -/
def udp_fetch_loop (realloc_ok : Nat → Bool) :
    List (Option (List Nat)) → List Nat → Nat → Int × List Nat
  | [], _, _ => (-1, [])
  | none :: _, _, _ => (-1, [])
  | some dgram :: rest, buf, cap =>
    let pkt := dgram.take UDP_CHUNK
    let n := pkt.length
    if n = 4 ∧ pkt.take 4 = bytes_of "DONE" then (0, buf)
    else if n ≥ 14 ∧ pkt.take 14 = bytes_of "File Not Found" then (-2, [])
    else if buf.length + n > cap then
      let newcap := if cap * 2 < buf.length + n then buf.length + n else cap * 2
      if realloc_ok newcap then udp_fetch_loop realloc_ok rest (buf ++ pkt) newcap
      else (-1, [])
    else udp_fetch_loop realloc_ok rest (buf ++ pkt) cap

/-- Source `udp_fetch_file(dbport, name, out, outlen)`: 0 and the record,
-2 for not found, -1 for a failure. -/
def udp_fetch_file (env : UdpEnv) (_name : List Nat) : Int × List Nat :=
  if ¬ env.socket_ok then (-1, [])
  else if ¬ env.sendto_ok then (-1, [])
  else if ¬ env.malloc_ok then (-1, [])
  else udp_fetch_loop env.realloc_ok env.datagrams [] 8192

/-! ## `mapToPath` and `guess_mime` -/

/-- The cast `(int)` of a `size_t`: the low 32 bits, read as two's complement. -/
def int_cast (n : Nat) : Int :=
  if n % 2 ^ 32 < 2 ^ 31 then ((n % 2 ^ 32 : Nat) : Int) else ((n % 2 ^ 32 : Nat) : Int) - 2 ^ 32

/-- The libc `snprintf(buf, size, ...)` for the formatted text `text`: the
string it stores (at most `size - 1` bytes) and its return value, the length
of the whole text. -/
def snprintf (size : Nat) (text : List Nat) : List Nat × Int :=
  (text.take (size - 1), (text.length : Int))

/-- Source `mapToPath(uri, path, pathsize)`: the return code and the string
left in `path`.  `is_dir p` is `stat(p, &st) == 0 && S_ISDIR(st.st_mode)`. -/
def mapToPath (is_dir : List Nat → Bool) (uri : List Nat) (pathsize : Nat) : Int × List Nat :=
  let root := bytes_of "Webpage"
  let first := snprintf pathsize (root ++ uri)
  let path := first.1
  if first.2 ≥ int_cast pathsize then (-1, path)
  else if is_dir path then
    let len := path.length
    if len + 1 ≥ pathsize then (-1, path)
    else
      let sep : List Nat := if path.getD (len - 1) 0 ≠ '/'.toNat then ['/'.toNat] else []
      let path := path ++ sep
      let len := len + sep.length
      let second := snprintf (pathsize - len) (bytes_of "index.html")
      if second.2 ≥ int_cast (pathsize - len) then (-1, path ++ second.1)
      else (0, path ++ second.1)
  else if uri.getD (uri.length - 1) 0 = '/'.toNat then
    let len := path.length
    let second := snprintf (pathsize - len) (bytes_of "index.html")
    if second.2 ≥ int_cast (pathsize - len) then (-1, path ++ second.1)
    else (0, path ++ second.1)
  else (0, path)

/-- Source `guess_mime(path)`. -/
def guess_mime (path : List Nat) : String :=
  match strrchr path '.'.toNat with
  | none => "application/octet-stream"
  | some dot =>
    if strcmp dot (bytes_of ".html") = 0 ∨ strcmp dot (bytes_of ".htm") = 0 then "text/html"
    else if strcmp dot (bytes_of ".css") = 0 then "text/css"
    else if strcmp dot (bytes_of ".js") = 0 then "application/javascript"
    else if strcmp dot (bytes_of ".png") = 0 then "image/png"
    else if strcmp dot (bytes_of ".jpg") = 0 ∨ strcmp dot (bytes_of ".jpeg") = 0 then "image/jpeg"
    else if strcmp dot (bytes_of ".gif") = 0 then "image/gif"
    else if strcmp dot (bytes_of ".txt") = 0 then "text/plain"
    else "application/octet-stream"

/-- The fixed table of the static path resolver, as the specification lists
it: file-extension suffix and MIME type. -/
def spec_mime_table : List (String × String) :=
  [(".html", "text/html"), (".htm", "text/html"), (".css", "text/css"),
   (".js", "application/javascript"), (".png", "image/png"), (".jpg", "image/jpeg"),
   (".jpeg", "image/jpeg"), (".gif", "image/gif"), (".txt", "text/plain")]

/-! ## The request handler (`main`) -/

/-- The libc `isspace` in the C locale: blank, `\t`, `\n`, `\v`, `\f`, `\r`. -/
def isspace (c : Nat) : Bool := c == ' '.toNat || ('\t'.toNat ≤ c && c ≤ '\r'.toNat)

/-- The conversion `%<width>s` of `sscanf`: white space is skipped, then up
to `width` bytes that are not white space are stored; the stored string and
the input left.  `none` when the input ends before a byte is stored. -/
def scan_s (width : Nat) (input : List Nat) : Option (List Nat × List Nat) :=
  let s := input.dropWhile isspace
  if s = [] then none
  else
    let tok := (s.takeWhile (fun c => !isspace c)).take width
    some (tok, s.drop tok.length)

/-- What `sscanf(reqline, "%15s %4095s %15s", method, uri, version)` yields:
its return value and the strings it stored. -/
structure ReqLine where
  count : Int
  method : List Nat
  uri : List Nat
  version : List Nat
deriving DecidableEq, Repr

/-- The call `sscanf(reqline, "%15s %4095s %15s", method, uri, version)`.
The blanks of the format skip white space, which the conversion after them
skips anyway; the return value is `EOF` when the input ends before the first
conversion. -/
def sscanf_reqline (reqline : List Nat) : ReqLine :=
  match scan_s 15 reqline with
  | none => ⟨-1, [], [], []⟩
  | some (method, s1) =>
    match scan_s 4095 s1 with
    | none => ⟨1, method, [], []⟩
    | some (uri, s2) =>
      match scan_s 15 s2 with
      | none => ⟨2, method, uri, []⟩
      | some (version, _) => ⟨3, method, uri, version⟩

/-- A client connection as `recv` sees it: the bytes the peer sends, and
whether after them the peer closes (`recv` returns 0) or stays silent until
the receive timeout (`recv` returns -1).  Calls interrupted by a signal are
retried by the source and leave no trace here. -/
structure Conn where
  bytes : List Nat
  closes : Bool
deriving DecidableEq, Repr

/-- The loop of `recv_line` with `buf[0..i)` as `buf`: the return value, the
string left in `buf`, and the bytes of the peer not yet read. -/
def recv_line_loop (bufsize : Nat) (closes : Bool) :
    List Nat → List Nat → Int × List Nat × List Nat
  | [], buf =>
    if buf.length + 1 < bufsize then
      if closes then ((buf.length : Int), buf, []) else (-1, buf, [])
    else ((buf.length : Int), buf, [])
  | c :: rest, buf =>
    if buf.length + 1 < bufsize then
      let buf1 := buf ++ [c]
      let i := buf1.length
      if i ≥ 2 ∧ buf1.getD (i - 2) 0 = '\r'.toNat ∧ buf1.getD (i - 1) 0 = '\n'.toNat then
        ((i : Int), buf1, rest)
      else recv_line_loop bufsize closes rest buf1
    else ((buf.length : Int), buf, c :: rest)

/-- Source `recv_line(sockfd, buf, bufsize)`: the return value, the bytes
stored in `buf` before its terminator, and the connection afterwards. -/
def recv_line (conn : Conn) (bufsize : Nat) : Int × List Nat × Conn :=
  let r := recv_line_loop bufsize conn.closes conn.bytes []
  (r.1, r.2.1, ⟨r.2.2, conn.closes⟩)

/-- The loop `do { ... } while (got_blank == 0)` that drains the headers, run
for at most `fuel` turns: `true` when the blank line was seen, `false` when a
read returned `n <= 0`; `none` when the fuel runs out. -/
def drain_headers : Nat → Conn → Option (Bool × Conn)
  | 0, _ => none
  | fuel + 1, conn =>
    let r := recv_line conn 2048
    if r.1 ≤ 0 then some (false, r.2.2)
    else if r.1 = 2 ∧ r.2.1.getD 0 0 = '\r'.toNat ∧ r.2.1.getD 1 0 = '\n'.toNat then
      some (true, r.2.2)
    else drain_headers fuel r.2.2

/-- What the system does for one request: the file system as `stat`, `open`
and `fstat` show it, whether the response header of a static file can be
sent, and the datastore exchange. -/
structure Env where
  is_dir : List Nat → Bool
  can_open : List Nat → Bool
  is_reg : List Nat → Bool
  send_ok : Bool
  udp : UdpEnv

/-- The outcome of one request: the status `printOutRequest` logs (`none`
when the connection is dropped without a log line), the record name handed
to `udp_fetch_file` if it was called, and the URI handed to `mapToPath` if it
was called. -/
structure Served where
  status : Option String
  fetched : Option (List Nat)
  mapped : Option (List Nat)
deriving DecidableEq, Repr

/-- The static branch of `main`, from the call of `mapToPath` on. -/
def serve_static (env : Env) (uri : List Nat) : Served :=
  let m := mapToPath env.is_dir uri 4096
  if m.1 < 0 then ⟨some "400 Bad Request", none, some uri⟩
  else if ¬ env.can_open m.2 then ⟨some "404 Not Found", none, some uri⟩
  else if ¬ env.is_reg m.2 then ⟨some "404 Not Found", none, some uri⟩
  else if ¬ env.send_ok then ⟨none, none, some uri⟩
  else ⟨some "200 OK", none, some uri⟩

/-- The datastore branch of `main` for the value `catkey` that `get_qparam`
stored: decoding in place, the scan for path separators, the fetch. -/
def serve_record (env : Env) (catkey : List Nat) : Option Served :=
  match url_decode_inplace (catkey ++ [0]) with
  | none => none
  | some (rc, buf) =>
    if rc ≠ 0 then some ⟨some "400 Bad Request", none, none⟩
    else
      let name := cstring buf
      if name.any (fun c => c == '/'.toNat || c == '\\'.toNat) then
        some ⟨some "400 Bad Request", none, none⟩
      else
        let rc := (udp_fetch_file env.udp name).1
        if rc = -2 then some ⟨some "404 Not Found", some name, none⟩
        else if rc ≠ 0 then some ⟨some "408 Request Timeout", some name, none⟩
        else some ⟨some "200 OK", some name, none⟩

/-- The part of `main` after the headers: the URI guard and the choice
between the datastore and the static branch.  `none` only when a loop of the
model runs out of fuel. -/
def dispatch (env : Env) (uri : List Nat) : Option Served :=
  if bad_uri uri ≠ 0 then some ⟨some "400 Bad Request", none, none⟩
  else
    match get_qparam uri (bytes_of "key") 512 with
    | none => none
    | some none => some (serve_static env uri)
    | some (some catkey) =>
      if catkey.getD 0 0 ≠ 0 then serve_record env catkey
      else some (serve_static env uri)

/-- The part of `main` from the parsed request line on, for the request line
`reqline` (a C string) and the connection after it. -/
def handle_request (env : Env) (reqline : List Nat) (conn : Conn) : Option Served :=
  let req := sscanf_reqline reqline
  if req.count ≠ 3 then some ⟨some "400 Bad Request", none, none⟩
  else if strcmp req.method (bytes_of "GET") ≠ 0 then
    some ⟨some "501 Not Implemented", none, none⟩
  else
    match drain_headers (conn.bytes.length + 1) conn with
    | none => none
    | some (false, _) => some ⟨some "408 Request Timeout", none, none⟩
    | some (true, _) => dispatch env req.uri

/-- One turn of the accept loop of `main` for an accepted connection. -/
def handle_connection (env : Env) (conn : Conn) : Option Served :=
  let r := recv_line conn 4096
  if r.1 ≤ 0 then some ⟨some "408 Request Timeout", none, none⟩
  else
    let n := r.1.toNat
    let reqline :=
      if n ≥ 2 ∧ r.2.1.getD (n - 2) 0 = '\r'.toNat ∧ r.2.1.getD (n - 1) 0 = '\n'.toNat then
        r.2.1.set (n - 2) 0
      else r.2.1
    handle_request env (cstring reqline) r.2.2

/-! ## `sendAll` and `sendHTML` -/

/-- What one call of `send` does: it takes the first `n` of the bytes offered
(as many as are offered when `n` is larger), or it is interrupted by a signal
(`errno == EINTR`), or it fails. -/
inductive SendResult where
  | sent (n : Nat)
  | eintr
  | error
deriving DecidableEq, Repr

/-- Source `sendAll(sockfd, buf, len)` for the bytes `buf[0..len)` and the
results of the successive calls of `send`: the return code, the bytes the
socket took, and the results not used.  `none` when the list of results is
used up before the loop ends. -/
def sendAll : List SendResult → List Nat → Option (Int × List Nat × List SendResult)
  | events, [] => some (0, [], events)
  | [], _ :: _ => none
  | .sent n :: events, b :: bs =>
    match sendAll events ((b :: bs).drop n) with
    | none => none
    | some (rc, out, rest) => some (rc, (b :: bs).take n ++ out, rest)
  | .eintr :: events, b :: bs => sendAll events (b :: bs)
  | .error :: events, _ :: _ => some (-1, [], events)

/-- The conversion `%d` of `snprintf`: the decimal digits of an `int`, with a
minus sign when it is negative. -/
def fmt_d (n : Int) : List Nat := bytes_of (toString n)

/-- The bytes `buf[0..len)` of an array in which `snprintf` stored the string
`stored`: they are defined as far as the string and its terminator reach;
`none` beyond that, where the program would read bytes it never wrote. -/
def read_array (stored : List Nat) (len : Nat) : Option (List Nat) :=
  if len ≤ stored.length + 1 then some ((stored ++ [0]).take len) else none

/-- Source `sendHTML(sockfd, status_line, title)` for the results of the
successive calls of `send`: the return code, the bytes the socket took, and
the results not used. -/
def sendHTML (events : List SendResult) (status_line title : List Nat) :
    Option (Int × List Nat × List SendResult) :=
  let body := snprintf 256 (bytes_of "<html><body><h1>" ++ title ++ bytes_of "</h1></body></html>")
  let blen := body.2
  if blen < 0 then some (-1, [], events)
  else
    let hdr := snprintf 256
      (bytes_of "HTTP/1.0 " ++ status_line ++ bytes_of "\r\n" ++
        bytes_of "Content-Length: " ++ fmt_d blen ++ bytes_of "\r\n" ++
        bytes_of "Content-Type: text/html\r\n" ++ bytes_of "\r\n")
    let hlen := hdr.2
    if hlen < 0 then some (-1, [], events)
    else
      match read_array hdr.1 hlen.toNat with
      | none => none
      | some hbytes =>
        match sendAll events hbytes with
        | none => none
        | some (rc1, out1, rest1) =>
          if rc1 < 0 then some (-1, out1, rest1)
          else
            match read_array body.1 blen.toNat with
            | none => none
            | some bbytes =>
              match sendAll rest1 bbytes with
              | none => none
              | some (rc2, out2, rest2) =>
                if rc2 < 0 then some (-1, out1 ++ out2, rest2)
                else some (0, out1 ++ out2, rest2)

/-! ## Notions of the specification -/

/-- The pieces of a string between the bytes that `sep` picks. -/
def split_at (sep : Nat → Bool) : List Nat → List (List Nat)
  | [] => [[]]
  | c :: cs =>
    if sep c then [] :: split_at sep cs
    else
      match split_at sep cs with
      | [] => [[c]]
      | p :: ps => (c :: p) :: ps

/-- The whitespace-separated tokens of a line. -/
def ws_tokens (line : List Nat) : List (List Nat) :=
  (split_at isspace line).filter (fun t => !t.isEmpty)

/-- The `&`-separated parameters of the query string of a request target,
the text after its first `?`. -/
def query_params (uri : List Nat) : List (List Nat) :=
  split_at (fun c => c == '&'.toNat) ((uri.dropWhile (fun c => c != '?'.toNat)).drop 1)

/-- The parameter reads `key=<value>`: it is named exactly `key`. -/
def is_key_param (p : List Nat) : Bool := (bytes_of "key=").isPrefixOf p

/-- A sample environment: no directories, every file can be opened and is
regular, the header can be sent, and the datastore sends two bytes and `DONE`. -/
def sample_env : Env :=
  ⟨fun _ => false, fun _ => true, fun _ => true, true,
    ⟨true, true, true, fun _ => true, [some [1, 2], some (bytes_of "DONE")]⟩⟩

/-- The error statuses the server answers with. -/
def error_statuses : List String :=
  ["400 Bad Request", "404 Not Found", "408 Request Timeout", "501 Not Implemented"]

/-- The body of an error response, as the specification gives the template:
`<html><body><h1>S</h1></body></html>`. -/
def spec_error_body (status : String) : List Nat :=
  bytes_of ("<html><body><h1>" ++ status ++ "</h1></body></html>")

/-- The header of an error response, as the specification gives it, with the
decimal byte count of the body as `Content-Length`. -/
def spec_error_header (status : String) : List Nat :=
  bytes_of ("HTTP/1.0 " ++ status ++ "\r\nContent-Length: " ++
    toString (spec_error_body status).length ++ "\r\nContent-Type: text/html\r\n\r\n")

/-! # Theorems -/

/-! ### Facts about the string primitives -/

theorem strcmp_self (a : List Nat) : strcmp a a = 0 := by
  induction a with
  | nil => rfl
  | cons x xs ih => simp [strcmp, ih]

theorem strcmp_eq_zero_of_length_eq :
    ∀ (a b : List Nat), a.length = b.length → (strcmp a b = 0 ↔ a = b)
  | [], [], _ => by simp [strcmp]
  | [], _ :: _, h => by simp at h
  | _ :: _, [], h => by simp at h
  | x :: xs, y :: ys, h => by
    have ih := strcmp_eq_zero_of_length_eq xs ys (by simpa using h)
    by_cases hxy : x = y
    · simp [strcmp, hxy, ih]
    · have : (x : Int) - (y : Int) ≠ 0 := by omega
      simp [strcmp, hxy, this]

/-- On C strings `strcmp` is 0 exactly for equal strings. -/
theorem strcmp_eq_zero_iff :
    ∀ (a b : List Nat), NoNul a → NoNul b → (strcmp a b = 0 ↔ a = b)
  | [], [], _, _ => by simp [strcmp]
  | [], y :: _, _, hb => by
    have : y ≠ 0 := hb y (by simp)
    simp [strcmp]; omega
  | x :: _, [], ha, _ => by
    have : x ≠ 0 := ha x (by simp)
    simp [strcmp]; omega
  | x :: xs, y :: ys, ha, hb => by
    have ih := strcmp_eq_zero_iff xs ys
      (fun b hb' => ha b (by simp [hb'])) (fun b hb' => hb b (by simp [hb']))
    by_cases hxy : x = y
    · simp [strcmp, hxy, ih]
    · have : (x : Int) - (y : Int) ≠ 0 := by omega
      simp [strcmp, hxy, this]

theorem strstr_isSome_iff (hay needle : List Nat) :
    (strstr hay needle).isSome ↔ needle <:+: hay := by
  induction hay with
  | nil =>
    by_cases h : needle = []
    · simp [strstr, h]
    · simp [strstr, h]
  | cons x xs ih =>
    unfold strstr
    by_cases hp : needle.isPrefixOf (x :: xs) = true
    · simp only [hp, if_true, Option.isSome_some, true_iff]
      exact (List.isPrefixOf_iff_prefix.mp hp).isInfix
    · simp only [hp, Bool.false_eq_true, if_false]
      rw [ih, List.infix_cons_iff]
      constructor
      · exact fun h => Or.inr h
      · rintro (h | h)
        · exact absurd (List.isPrefixOf_iff_prefix.mpr h) hp
        · exact h

theorem drop_length_sub_eq_iff_suffix (s t : List Nat) (h : t.length ≤ s.length) :
    s.drop (s.length - t.length) = t ↔ t <:+ s := by
  constructor
  · intro h'
    rw [← h']
    exact List.drop_suffix _ _
  · rintro ⟨p, rfl⟩
    simp

/-! ## Claim C1 -/

/-- C1: `bad_uri` returns 1 exactly when the URI does not start with `/`, or
contains the substring `/../`, or ends with the three characters `/..`; in
every other case it returns 0; and a URI for which it returns 1 is answered
400 Bad Request without a call of the datastore or of the path resolver. -/
theorem bad_uri_spec (uri : List Nat) :
    (bad_uri uri = 1 ↔
      (¬ bytes_of "/" <+: uri ∨ bytes_of "/../" <:+: uri ∨ bytes_of "/.." <:+ uri)) ∧
    (¬ (¬ bytes_of "/" <+: uri ∨ bytes_of "/../" <:+: uri ∨ bytes_of "/.." <:+ uri) →
      bad_uri uri = 0) ∧
    (∀ env : Env, bad_uri uri = 1 →
      dispatch env uri = some ⟨some "400 Bad Request", none, none⟩) := by
  have main : (bad_uri uri = 1 ↔
      (¬ bytes_of "/" <+: uri ∨ bytes_of "/../" <:+: uri ∨ bytes_of "/.." <:+ uri)) ∧
      (¬ (¬ bytes_of "/" <+: uri ∨ bytes_of "/../" <:+: uri ∨ bytes_of "/.." <:+ uri) →
        bad_uri uri = 0) := by
    have h1 : bytes_of "/" = [47] := rfl
    have h3 : bytes_of "/.." = [47, 46, 46] := rfl
    have hstart : uri.getD 0 0 = 47 ↔ [47] <+: uri := by
      cases uri with
      | nil => simp
      | cons x xs =>
        constructor
        · intro h
          have hx : x = 47 := by simpa using h
          exact ⟨xs, by simp [hx]⟩
        · rintro ⟨t, ht⟩; simp at ht; exact ht.1.symm
    have hsuf : (uri.length ≥ 3 ∧ strcmp (uri.drop (uri.length - 3)) [47, 46, 46] = 0) ↔
        [47, 46, 46] <:+ uri := by
      constructor
      · rintro ⟨hn, hc⟩
        have hl : (uri.drop (uri.length - 3)).length = ([47, 46, 46] : List Nat).length := by
          simp; omega
        rw [strcmp_eq_zero_of_length_eq _ _ hl] at hc
        exact (drop_length_sub_eq_iff_suffix uri [47, 46, 46] (by simpa using hn)).mp hc
      · intro hs
        have hn : 3 ≤ uri.length := by simpa using hs.length_le
        refine ⟨hn, ?_⟩
        have := (drop_length_sub_eq_iff_suffix uri [47, 46, 46] (by simpa using hn)).mpr hs
        simp only [List.length_cons, List.length_nil] at this
        rw [this]
        exact strcmp_self _
    have key : bad_uri uri =
        if (¬ [47] <+: uri ∨ bytes_of "/../" <:+: uri ∨ [47, 46, 46] <:+ uri) then 1 else 0 := by
      unfold bad_uri
      simp only [Char.reduceToNat, ne_eq, hstart, strstr_isSome_iff, h3, hsuf]
      by_cases ha : [47] <+: uri <;> by_cases hb : bytes_of "/../" <:+: uri <;>
        by_cases hc : [47, 46, 46] <:+ uri <;> simp [ha, hb, hc]
    rw [h1, h3, key]
    constructor
    · split <;> simp_all
    · intro h
      simp [h]
  exact ⟨main.1, main.2, fun env h => by simp [dispatch, h]⟩

/-! ### The decoder: the loop against its specification -/

theorem getD_buf (out gap t : List Nat) (i : Nat) :
    (out ++ (gap ++ t)).getD (out.length + gap.length + i) 0 = t.getD i 0 := by
  rw [List.getD_append_right _ _ _ _ (by omega), List.getD_append_right _ _ _ _ (by omega)]
  congr 1
  omega

theorem getD_buf_zero (out gap t : List Nat) :
    (out ++ (gap ++ t)).getD (out.length + gap.length) 0 = t.getD 0 0 :=
  getD_buf out gap t 0

theorem set_buf_shift (out gap used t : List Nat) (hu : used ≠ []) (v : Nat) :
    ∃ gap1, (out ++ (gap ++ (used ++ t))).set out.length v = (out ++ [v]) ++ (gap1 ++ t) ∧
      gap1.length + 1 = gap.length + used.length := by
  cases hg : gap ++ used with
  | nil => simp [hu] at hg
  | cons x m =>
    refine ⟨m, ?_, ?_⟩
    · rw [← List.append_assoc gap used t, hg]
      simp
    · have := congrArg List.length hg
      simp at this
      omega

theorem decode_at_eq (out gap1 t : List Nat) (v r : Nat) (b : List Nat)
    (hb : b = (out ++ [v]) ++ (gap1 ++ t)) (hr : r = out.length + 1 + gap1.length) :
    (⟨b, r, out.length + 1⟩ : DecodeState) = decode_at (out ++ [v]) gap1 t := by
  subst hb hr
  simp [decode_at]

theorem step_end (out gap post : List Nat) :
    ∃ tail, url_decode_step (decode_at out gap (0 :: post)) = .ret 0 (out ++ 0 :: tail) := by
  obtain ⟨g, hg, _⟩ := set_buf_shift out gap [0] post (by simp) 0
  refine ⟨g ++ post, ?_⟩
  have hc : (out ++ (gap ++ 0 :: post)).getD (out.length + gap.length) 0 = 0 := by
    rw [getD_buf_zero]; rfl
  simp only [url_decode_step, decode_at, hc, if_true]
  simp only [List.singleton_append] at hg
  rw [hg]
  simp

theorem step_plus (out gap t : List Nat) :
    ∃ gap1, url_decode_step (decode_at out gap (43 :: t)) = .next (decode_at (out ++ [32]) gap1 t) := by
  obtain ⟨g, hg, hl⟩ := set_buf_shift out gap [43] t (by simp) 32
  refine ⟨g, ?_⟩
  have hc : (out ++ (gap ++ 43 :: t)).getD (out.length + gap.length) 0 = 43 := by
    rw [getD_buf_zero]; rfl
  simp only [url_decode_step, decode_at, hc, Char.reduceToNat]
  simp only [List.singleton_append] at hg
  simp only [OfNat.ofNat_ne_zero, if_false, if_true, DecodeStep.next.injEq]
  exact decode_at_eq out g t 32 _ _ hg (by simp at hl; omega)

theorem step_lit (out gap t : List Nat) (c : Nat) (h0 : c ≠ 0) (h1 : c ≠ 43)
    (h2 : c ≠ 37 ∨ t.getD 0 0 = 0 ∨ t.getD 1 0 = 0) :
    ∃ gap1, url_decode_step (decode_at out gap (c :: t)) = .next (decode_at (out ++ [c]) gap1 t) := by
  obtain ⟨g, hg, hl⟩ := set_buf_shift out gap [c] t (by simp) c
  refine ⟨g, ?_⟩
  have hc : (out ++ (gap ++ c :: t)).getD (out.length + gap.length) 0 = c := by
    rw [getD_buf_zero]; rfl
  have hc1 : (out ++ (gap ++ c :: t)).getD (out.length + gap.length + 1) 0 = t.getD 0 0 := by
    rw [getD_buf]; rfl
  have hc2 : (out ++ (gap ++ c :: t)).getD (out.length + gap.length + 2) 0 = t.getD 1 0 := by
    rw [getD_buf]; rfl
  have hcond : ¬ (c = 37 ∧ t.getD 0 0 ≠ 0 ∧ t.getD 1 0 ≠ 0) := by
    rintro ⟨a, b, d⟩
    rcases h2 with h | h | h
    · exact h a
    · exact b h
    · exact d h
  simp only [url_decode_step, decode_at, hc, hc1, hc2, Char.reduceToNat, h0, h1, hcond, if_false]
  simp only [List.singleton_append] at hg
  simp only [DecodeStep.next.injEq]
  exact decode_at_eq out g t c _ _ hg (by simp at hl; omega)

theorem step_hex (out gap t : List Nat) (h l hi lo : Nat) (h0 : h ≠ 0) (l0 : l ≠ 0)
    (hh : hex_value h = some hi) (hl : hex_value l = some lo) :
    ∃ gap1, url_decode_step (decode_at out gap (37 :: h :: l :: t)) =
      .next (decode_at (out ++ [((hi <<< 4) ||| lo) % 256]) gap1 t) := by
  obtain ⟨g, hg, hlen⟩ := set_buf_shift out gap [37, h, l] t (by simp) (((hi <<< 4) ||| lo) % 256)
  refine ⟨g, ?_⟩
  have hc : (out ++ (gap ++ 37 :: h :: l :: t)).getD (out.length + gap.length) 0 = 37 := by
    rw [getD_buf_zero]; rfl
  have hc1 : (out ++ (gap ++ 37 :: h :: l :: t)).getD (out.length + gap.length + 1) 0 = h := by
    rw [getD_buf]; rfl
  have hc2 : (out ++ (gap ++ 37 :: h :: l :: t)).getD (out.length + gap.length + 2) 0 = l := by
    rw [getD_buf]; rfl
  simp only [url_decode_step, decode_at, hc, hc1, hc2, Char.reduceToNat, hh, hl]
  simp only [OfNat.ofNat_ne_zero, if_false, ne_eq, h0, l0, not_false_eq_true, and_self, if_true,
    (by decide : ¬ (37 : Nat) = 43), DecodeStep.next.injEq]
  have hg1 : (out ++ (gap ++ 37 :: h :: l :: t)).set out.length (((hi <<< 4) ||| lo) % 256) =
      (out ++ [((hi <<< 4) ||| lo) % 256]) ++ (g ++ t) := by
    simpa using hg
  refine decode_at_eq out g t _ _ _ hg1 ?_
  simp at hlen
  omega

theorem step_bad (out gap t : List Nat) (h l : Nat) (h0 : h ≠ 0) (l0 : l ≠ 0)
    (hbad : hex_value h = none ∨ hex_value l = none) :
    ∃ b, url_decode_step (decode_at out gap (37 :: h :: l :: t)) = .ret (-1) b := by
  have hc : (out ++ (gap ++ 37 :: h :: l :: t)).getD (out.length + gap.length) 0 = 37 := by
    rw [getD_buf_zero]; rfl
  have hc1 : (out ++ (gap ++ 37 :: h :: l :: t)).getD (out.length + gap.length + 1) 0 = h := by
    rw [getD_buf]; rfl
  have hc2 : (out ++ (gap ++ 37 :: h :: l :: t)).getD (out.length + gap.length + 2) 0 = l := by
    rw [getD_buf]; rfl
  refine ⟨out ++ (gap ++ 37 :: h :: l :: t), ?_⟩
  simp only [url_decode_step, decode_at, hc, hc1, hc2, Char.reduceToNat]
  simp only [OfNat.ofNat_ne_zero, if_false, ne_eq, h0, l0, not_false_eq_true, and_self, if_true,
    (by decide : ¬ (37 : Nat) = 43)]
  rcases hbad with hb | hb
  · simp only [hb]
  · cases hx : hex_value h with
    | none => rfl
    | some hi => simp only [hb]

theorem url_decoded_plus (t : List Nat) :
    url_decoded (43 :: t) = (url_decoded t).map (32 :: ·) := by
  rcases t with _ | ⟨a, _ | ⟨b, t⟩⟩ <;> simp [url_decoded]

theorem url_decoded_lit (c : Nat) (t : List Nat) (h1 : c ≠ 43) (h2 : c ≠ 37 ∨ t.length < 2) :
    url_decoded (c :: t) = (url_decoded t).map (c :: ·) := by
  rcases t with _ | ⟨a, _ | ⟨b, t⟩⟩
  · simp [url_decoded, h1]
  · simp [url_decoded, h1]
  · have h3 : c ≠ 37 := by
      rcases h2 with h | h
      · exact h
      · simp at h; omega
    simp [url_decoded, h1, h3]

theorem url_decoded_hex (h l hi lo : Nat) (t : List Nat)
    (hh : hex_value h = some hi) (hl : hex_value l = some lo) :
    url_decoded (37 :: h :: l :: t) = (url_decoded t).map ((((hi <<< 4) ||| lo) % 256) :: ·) := by
  simp [url_decoded, hh, hl]

theorem url_decoded_bad (h l : Nat) (t : List Nat)
    (hbad : hex_value h = none ∨ hex_value l = none) :
    url_decoded (37 :: h :: l :: t) = none := by
  rcases hbad with hb | hb
  · simp [url_decoded, hb]
  · cases hx : hex_value h <;> simp [url_decoded, hb, hx]

theorem runsTo_map (res : Option (Int × List Nat)) (out : List Nat) (v : Nat)
    (spec : Option (List Nat)) (h : RunsTo res (out ++ [v]) spec) :
    RunsTo res out (spec.map (v :: ·)) := by
  cases spec with
  | none => exact h
  | some d =>
    obtain ⟨tail, ht⟩ := h
    exact ⟨tail, by simpa using ht⟩

/-- The loop computes `url_decoded`: started with `out` written and the C
string `s` to read, it returns 0 and leaves `out`, the decoded bytes and a
terminator at the front of the buffer, or returns -1. -/
theorem url_decode_run_spec :
    ∀ (n : Nat) (s out gap post : List Nat), NoNul s → s.length < n →
      RunsTo (url_decode_run n (decode_at out gap (s ++ 0 :: post))) out (url_decoded s) := by
  intro n
  induction n with
  | zero => intro s _ _ _ _ h; simp at h
  | succ n ih =>
    intro s out gap post hs hn
    cases s with
    | nil =>
      obtain ⟨tail, ht⟩ := step_end out gap post
      refine ⟨tail, ?_⟩
      simp [url_decode_run, ht]
    | cons c t =>
      have hc0 : c ≠ 0 := hs c (by simp)
      have ht0 : NoNul t := fun b hb => hs b (by simp [hb])
      have htn : t.length < n := by simp at hn; omega
      by_cases hplus : c = 43
      · subst hplus
        obtain ⟨g, hg⟩ := step_plus out gap (t ++ 0 :: post)
        rw [url_decoded_plus]
        apply runsTo_map
        have := ih t (out ++ [32]) g post ht0 htn
        simpa [url_decode_run, hg] using this
      · by_cases hlit : c ≠ 37 ∨ t.length < 2
        · have hcond : c ≠ 37 ∨ (t ++ 0 :: post).getD 0 0 = 0 ∨ (t ++ 0 :: post).getD 1 0 = 0 := by
            rcases hlit with h | h
            · exact Or.inl h
            · right
              rcases t with _ | ⟨a, _ | ⟨b, t⟩⟩
              · left; rfl
              · right; rfl
              · simp at h; omega
          obtain ⟨g, hg⟩ := step_lit out gap (t ++ 0 :: post) c hc0 hplus hcond
          rw [url_decoded_lit c t hplus hlit]
          apply runsTo_map
          have := ih t (out ++ [c]) g post ht0 htn
          simpa [url_decode_run, hg] using this
        · have hc37 : c = 37 := by
            by_contra h; exact hlit (Or.inl h)
          subst hc37
          rcases t with _ | ⟨h, _ | ⟨l, t⟩⟩
          · exact absurd (Or.inr (by simp)) hlit
          · exact absurd (Or.inr (by simp)) hlit
          · have hh0 : h ≠ 0 := ht0 h (by simp)
            have hl0 : l ≠ 0 := ht0 l (by simp)
            have ht0' : NoNul t := fun b hb => ht0 b (by simp [hb])
            have htn' : t.length < n := by simp at htn; omega
            cases hh : hex_value h with
            | none =>
              obtain ⟨b, hb⟩ := step_bad out gap (t ++ 0 :: post) h l hh0 hl0 (Or.inl hh)
              rw [url_decoded_bad h l t (Or.inl hh)]
              exact ⟨b, by
                have : (37 :: h :: l :: t) ++ 0 :: post = 37 :: h :: l :: (t ++ 0 :: post) := rfl
                rw [this]
                simp [url_decode_run, hb]⟩
            | some hi =>
              cases hl : hex_value l with
              | none =>
                obtain ⟨b, hb⟩ := step_bad out gap (t ++ 0 :: post) h l hh0 hl0 (Or.inr hl)
                rw [url_decoded_bad h l t (Or.inr hl)]
                exact ⟨b, by
                  have : (37 :: h :: l :: t) ++ 0 :: post = 37 :: h :: l :: (t ++ 0 :: post) := rfl
                  rw [this]
                  simp [url_decode_run, hb]⟩
              | some lo =>
                obtain ⟨g, hg⟩ := step_hex out gap (t ++ 0 :: post) h l hi lo hh0 hl0 hh hl
                rw [url_decoded_hex h l hi lo t hh hl]
                apply runsTo_map
                have := ih t (out ++ [((hi <<< 4) ||| lo) % 256]) g post ht0' htn'
                have e : (37 :: h :: l :: t) ++ 0 :: post = 37 :: h :: l :: (t ++ 0 :: post) := rfl
                rw [e]
                simpa [url_decode_run, hg] using this

/-! ### Escapes -/

theorem hex_value_isSome_iff (c : Nat) : (hex_value c).isSome ↔ IsHexDigit c := by
  unfold hex_value IsHexDigit
  have : bytes_of "0123456789ABCDEFabcdef" =
      [48, 49, 50, 51, 52, 53, 54, 55, 56, 57, 65, 66, 67, 68, 69, 70,
       97, 98, 99, 100, 101, 102] := rfl
  rw [this]
  simp only [Char.reduceToNat, List.mem_cons, List.mem_singleton]
  split_ifs <;> simp <;> omega

theorem hex_value_eq_none_iff (c : Nat) : hex_value c = none ↔ ¬ IsHexDigit c := by
  rw [← hex_value_isSome_iff]
  cases hex_value c <;> simp

theorem not_isHexDigit_percent : ¬ IsHexDigit 37 := by decide

theorem hasBadEscape_cons (c : Nat) (t : List Nat) :
    HasBadEscape (c :: t) ↔
      (c = 37 ∧ 2 ≤ t.length ∧ ¬ (IsHexDigit (t.getD 0 0) ∧ IsHexDigit (t.getD 1 0))) ∨
        HasBadEscape t := by
  unfold HasBadEscape
  simp only [Char.reduceToNat]
  constructor
  · rintro ⟨i, hi, h2, hc, hn⟩
    cases i with
    | zero =>
      left
      refine ⟨by simpa using hc, by simp at h2; omega, ?_⟩
      simpa only [List.getD_cons_succ] using hn
    | succ i =>
      right
      refine ⟨i, by simp at hi; omega, by simp at h2; omega, ?_, ?_⟩
      · simpa only [List.getD_cons_succ] using hc
      · simpa only [List.getD_cons_succ] using hn
  · rintro (⟨hc, h2, hn⟩ | ⟨i, hi, h2, hc, hn⟩)
    · refine ⟨0, by simp, by simp; omega, by simpa using hc, ?_⟩
      simpa only [List.getD_cons_succ] using hn
    · refine ⟨i + 1, by simp; omega, by simp; omega, ?_, ?_⟩
      · simpa only [List.getD_cons_succ] using hc
      · simpa only [List.getD_cons_succ] using hn

/-- The specification fails exactly on the strings with a complete, invalid escape. -/
theorem url_decoded_eq_none_iff :
    ∀ (n : Nat) (s : List Nat), s.length ≤ n → (url_decoded s = none ↔ HasBadEscape s) := by
  intro n
  induction n with
  | zero =>
    intro s hs
    have : s = [] := by simpa using hs
    subst this
    simp [url_decoded, HasBadEscape]
  | succ n ih =>
    intro s hs
    cases s with
    | nil => simp [url_decoded, HasBadEscape]
    | cons c t =>
      have htn : t.length ≤ n := by simp at hs; omega
      by_cases hplus : c = 43
      · subst hplus
        rw [url_decoded_plus, hasBadEscape_cons, ← ih t htn]
        simp
      · by_cases hlit : c ≠ 37 ∨ t.length < 2
        · rw [url_decoded_lit c t hplus hlit, hasBadEscape_cons, ← ih t htn]
          have : ¬ (c = 37 ∧ 2 ≤ t.length ∧
              ¬ (IsHexDigit (t.getD 0 0) ∧ IsHexDigit (t.getD 1 0))) := by
            rintro ⟨a, b, _⟩
            rcases hlit with h | h
            · exact h a
            · omega
          rw [or_iff_right this]
          simp
        · have hc37 : c = 37 := by
            by_contra h; exact hlit (Or.inl h)
          subst hc37
          rcases t with _ | ⟨h, _ | ⟨l, t⟩⟩
          · exact absurd (Or.inr (by simp)) hlit
          · exact absurd (Or.inr (by simp)) hlit
          · have htn2 : t.length ≤ n := by simp at htn; omega
            by_cases hok : IsHexDigit h ∧ IsHexDigit l
            · obtain ⟨hi, hhi⟩ := Option.isSome_iff_exists.mp ((hex_value_isSome_iff h).mpr hok.1)
              obtain ⟨lo, hlo⟩ := Option.isSome_iff_exists.mp ((hex_value_isSome_iff l).mpr hok.2)
              have h37 : h ≠ 37 := fun e => not_isHexDigit_percent (e ▸ hok.1)
              have l37 : l ≠ 37 := fun e => not_isHexDigit_percent (e ▸ hok.2)
              rw [url_decoded_hex h l hi lo t hhi hlo, hasBadEscape_cons, hasBadEscape_cons,
                hasBadEscape_cons, ← ih t htn2]
              simp [hok, h37, l37]
            · have hbad : hex_value h = none ∨ hex_value l = none := by
                rw [hex_value_eq_none_iff, hex_value_eq_none_iff]
                by_cases hh : IsHexDigit h
                · exact Or.inr fun hl => hok ⟨hh, hl⟩
                · exact Or.inl hh
              rw [url_decoded_bad h l t hbad, hasBadEscape_cons]
              simp [hok]

theorem wellEscaped_not_bad (s : List Nat) (h : WellEscaped s) : ¬ HasBadEscape s := by
  rintro ⟨i, hi, _, hc, hn⟩
  exact hn (h i hi hc).2

theorem url_decoded_length_le :
    ∀ (n : Nat) (s d : List Nat), s.length ≤ n → url_decoded s = some d → d.length ≤ s.length := by
  intro n
  induction n with
  | zero =>
    intro s d hs hd
    have : s = [] := by simpa using hs
    subst this
    simp [url_decoded] at hd
    simp [← hd]
  | succ n ih =>
    intro s d hs hd
    cases s with
    | nil =>
      simp [url_decoded] at hd
      simp [← hd]
    | cons c t =>
      have htn : t.length ≤ n := by simp at hs; omega
      by_cases hplus : c = 43
      · subst hplus
        rw [url_decoded_plus] at hd
        obtain ⟨d1, hd1, rfl⟩ := Option.map_eq_some'.mp hd
        have := ih t d1 htn hd1
        simp; omega
      · by_cases hlit : c ≠ 37 ∨ t.length < 2
        · rw [url_decoded_lit c t hplus hlit] at hd
          obtain ⟨d1, hd1, rfl⟩ := Option.map_eq_some'.mp hd
          have := ih t d1 htn hd1
          simp; omega
        · have hc37 : c = 37 := by
            by_contra h; exact hlit (Or.inl h)
          subst hc37
          rcases t with _ | ⟨h, _ | ⟨l, t⟩⟩
          · exact absurd (Or.inr (by simp)) hlit
          · exact absurd (Or.inr (by simp)) hlit
          · have htn2 : t.length ≤ n := by simp at htn; omega
            cases hh : hex_value h with
            | none => rw [url_decoded_bad h l t (Or.inl hh)] at hd; simp at hd
            | some hi =>
              cases hl : hex_value l with
              | none => rw [url_decoded_bad h l t (Or.inr hl)] at hd; simp at hd
              | some lo =>
                rw [url_decoded_hex h l hi lo t hh hl] at hd
                obtain ⟨d1, hd1, rfl⟩ := Option.map_eq_some'.mp hd
                have := ih t d1 htn2 hd1
                simp; omega

/-! ### The decoder on a buffer -/

theorem url_decode_inplace_spec (s post : List Nat) (hs : NoNul s) :
    RunsTo (url_decode_inplace (s ++ 0 :: post)) [] (url_decoded s) := by
  have := url_decode_run_spec ((s ++ 0 :: post).length + 1) s [] [] post hs (by simp; omega)
  simpa [decode_at, url_decode_inplace] using this

theorem cstring_append_nul (d tail : List Nat) : cstring (d ++ 0 :: tail) = cstring d := by
  induction d with
  | nil => simp [cstring]
  | cons x xs ih =>
    unfold cstring at ih ⊢
    by_cases hx : x = 0
    · simp [hx]
    · simp [List.takeWhile_cons, hx, ih]

theorem cstring_of_noNul (d : List Nat) (h : NoNul d) : cstring d = d := by
  unfold cstring
  rw [List.takeWhile_eq_self_iff]
  intro b hb
  simpa using h b hb

theorem cstring_length_le (d : List Nat) : (cstring d).length ≤ d.length :=
  (List.takeWhile_sublist _).length_le

theorem url_decode_step_next (st st1 : DecodeState) (h : url_decode_step st = .next st1) :
    st1.w = st.w + 1 ∧ st.r + 1 ≤ st1.r ∧ st.buf.getD st.r 0 ≠ 0 ∧
      ∃ v, st1.buf = st.buf.set st.w v := by
  unfold url_decode_step at h
  simp only at h
  split_ifs at h with h0 h1 h2
  · injection h with h; subst h; exact ⟨rfl, le_refl _, h0, _, rfl⟩
  · split at h
    · cases h
    · split at h
      · cases h
      · injection h with h; subst h; exact ⟨rfl, by simp, h0, _, rfl⟩
  · injection h with h; subst h; exact ⟨rfl, le_refl _, h0, _, rfl⟩

theorem getD_set_ne (l : List Nat) (w i v : Nat) (h : w ≠ i) :
    (l.set w v).getD i 0 = l.getD i 0 := by
  simp [List.getD_eq_getElem?_getD, List.getElem?_set_ne h]

theorem lt_length_of_getD_ne_zero (l : List Nat) (i : Nat) (h : l.getD i 0 ≠ 0) :
    i < l.length := by
  by_contra hi
  exact h (List.getD_eq_default _ _ (by omega))

/-- While the loop runs, the write pointer stays at or behind the read
pointer and the bytes from the read pointer on are those of the input. -/
theorem url_decode_state_inv :
    ∀ (n : Nat) (st st1 : DecodeState), st.w ≤ st.r → url_decode_state n st = some st1 →
      st1.w ≤ st1.r ∧ st.r ≤ st1.r ∧
        ∀ i, st1.r ≤ i → st1.buf.getD i 0 = st.buf.getD i 0 := by
  intro n
  induction n with
  | zero =>
    intro st st1 hw h
    simp only [url_decode_state, Option.some.injEq] at h
    subst h
    exact ⟨hw, le_refl _, fun _ _ => rfl⟩
  | succ n ih =>
    intro st st1 hw h
    unfold url_decode_state at h
    split at h
    · cases h
    · next st2 hstep =>
      obtain ⟨h1, h2, _, v, hv⟩ := url_decode_step_next st st2 hstep
      obtain ⟨a, b, c⟩ := ih st2 st1 (by omega) h
      refine ⟨a, by omega, fun i hi => ?_⟩
      rw [c i hi, hv]
      exact getD_set_ne _ _ _ _ (by omega)

/-- The loop returns: one turn for every byte of the buffer and one more suffice. -/
theorem url_decode_run_isSome :
    ∀ (n : Nat) (st : DecodeState), st.buf.length - st.r < n → (url_decode_run n st).isSome := by
  intro n
  induction n with
  | zero => intro st h; simp at h
  | succ n ih =>
    intro st h
    unfold url_decode_run
    split
    · simp
    · next st2 hstep =>
      obtain ⟨_, h2, h3, v, hv⟩ := url_decode_step_next st st2 hstep
      have hlt := lt_length_of_getD_ne_zero _ _ h3
      apply ih
      rw [hv, List.length_set]
      omega

theorem url_decode_inplace_isSome (buf : List Nat) : (url_decode_inplace buf).isSome :=
  url_decode_run_isSome _ _ (by simp)

/-! ### The round trip -/

theorem hex_value_hex_digit_char :
    ∀ d < 16, ∀ u : Bool, hex_value (hex_digit_char u d) = some d := by decide

theorem hex_digit_char_ne_zero : ∀ d < 16, ∀ u : Bool, hex_digit_char u d ≠ 0 := by decide

set_option maxRecDepth 100000 in
theorem byte_of_nibbles : ∀ b < 128, ((b / 16) <<< 4 ||| (b % 16)) % 256 = b := by decide

theorem noNul_spec_url_encode (escape : Nat → Bool) (upper : Bool) (s : List Nat)
    (hs : ∀ b ∈ s, 0 < b ∧ b < 128) : NoNul (spec_url_encode escape upper s) := by
  induction s with
  | nil => intro b hb; simp [spec_url_encode] at hb
  | cons x xs ih =>
    have hx := hs x (by simp)
    have ih1 := ih (fun b hb => hs b (by simp [hb]))
    intro b hb
    simp only [spec_url_encode, Char.reduceToNat, List.mem_append] at hb
    rcases hb with hb | hb
    · split_ifs at hb
      · simp at hb; omega
      · simp only [List.mem_cons, List.mem_singleton, List.not_mem_nil, or_false] at hb
        rcases hb with hb | hb | hb
        · omega
        · exact hb ▸ hex_digit_char_ne_zero _ (by omega) _
        · exact hb ▸ hex_digit_char_ne_zero _ (Nat.mod_lt _ (by decide)) _
      · simp at hb; omega
    · exact ih1 b hb

theorem url_decoded_spec_url_encode (escape : Nat → Bool) (upper : Bool) (s : List Nat)
    (hs : ∀ b ∈ s, 0 < b ∧ b < 128) :
    url_decoded (spec_url_encode escape upper s) = some s := by
  induction s with
  | nil => rfl
  | cons x xs ih =>
    have hx := hs x (by simp)
    have ih1 := ih (fun b hb => hs b (by simp [hb]))
    simp only [spec_url_encode, Char.reduceToNat]
    split_ifs with h1 h2
    · subst h1
      simp [url_decoded_plus, ih1]
    · have e1 := hex_value_hex_digit_char (x / 16) (by omega) upper
      have e2 := hex_value_hex_digit_char (x % 16) (Nat.mod_lt _ (by decide)) upper
      have := url_decoded_hex _ _ _ _ (spec_url_encode escape upper xs) e1 e2
      simp only [List.cons_append, List.nil_append]
      rw [this, ih1, byte_of_nibbles x hx.2]
      rfl
    · have h43 : x ≠ 43 := fun e => h2 (Or.inl e)
      have h37 : x ≠ 37 := fun e => h2 (Or.inr (Or.inl e))
      simp only [List.cons_append, List.nil_append]
      rw [url_decoded_lit x _ h43 (Or.inl h37), ih1]
      rfl

/-! ## Claims C3, C4, C5: the percent decoder -/

/-- C3 (as stated, refuted): the string `ab%4` holds a `%` truncated at the
end of the string, and `url_decode_inplace` returns 0 on it, leaving the
string as it was. -/
theorem url_decode_inplace_truncated_escape_accepted :
    NoNul (bytes_of "ab%4") ∧ HasTruncatedEscape (bytes_of "ab%4") ∧
      url_decode_inplace (bytes_of "ab%4" ++ [0]) = some (0, bytes_of "ab%4" ++ [0]) := by
  decide

/-- C3 (amended): on a C string that holds a `%` followed by two characters
of which one is not a hexadecimal digit, `url_decode_inplace` returns -1; on
every other C string, those with a `%` truncated at the end included, it
returns 0.  The result is a function of the buffer alone. -/
theorem url_decode_inplace_fails_iff (s post : List Nat) (hs : NoNul s) :
    (HasBadEscape s → ∃ b, url_decode_inplace (s ++ 0 :: post) = some (-1, b)) ∧
    (¬ HasBadEscape s → ∃ b, url_decode_inplace (s ++ 0 :: post) = some (0, b)) := by
  have hrun := url_decode_inplace_spec s post hs
  constructor
  · intro hbad
    rw [(url_decoded_eq_none_iff s.length s (le_refl _)).mpr hbad] at hrun
    exact hrun
  · intro hok
    cases hd : url_decoded s with
    | none => exact absurd ((url_decoded_eq_none_iff s.length s (le_refl _)).mp hd) hok
    | some d =>
      rw [hd] at hrun
      obtain ⟨tail, ht⟩ := hrun
      exact ⟨_, ht⟩

theorem url_decode_inplace_fails_iff_witness :
    NoNul (bytes_of "a%4z") ∧ HasBadEscape (bytes_of "a%4z") ∧
      ∃ b, url_decode_inplace (bytes_of "a%4z" ++ 0 :: [7]) = some (-1, b) :=
  ⟨by decide, by decide,
    (url_decode_inplace_fails_iff (bytes_of "a%4z") [7] (by decide)).1 (by decide)⟩

/-- C4: on a C string in which every `%` is followed by two hexadecimal
digits, `url_decode_inplace` returns 0 and the decoded string is no longer
than the input; at every turn of the loop the write pointer is at or behind
the read pointer and the bytes still to be read are those of the input. -/
theorem url_decode_inplace_well_escaped (s post : List Nat) (hs : NoNul s)
    (hw : WellEscaped s) :
    (∃ b, url_decode_inplace (s ++ 0 :: post) = some (0, b) ∧
      (cstring b).length ≤ s.length) ∧
    (∀ n st, url_decode_state n ⟨s ++ 0 :: post, 0, 0⟩ = some st →
      st.w ≤ st.r ∧ ∀ i, st.r ≤ i → st.buf.getD i 0 = (s ++ 0 :: post).getD i 0) := by
  constructor
  · have hrun := url_decode_inplace_spec s post hs
    cases hd : url_decoded s with
    | none =>
      exact absurd ((url_decoded_eq_none_iff s.length s (le_refl _)).mp hd)
        (wellEscaped_not_bad s hw)
    | some d =>
      rw [hd] at hrun
      obtain ⟨tail, ht⟩ := hrun
      refine ⟨_, ht, ?_⟩
      rw [List.nil_append, cstring_append_nul]
      exact le_trans (cstring_length_le d) (url_decoded_length_le s.length s d (le_refl _) hd)
  · intro n st h
    obtain ⟨a, _, c⟩ := url_decode_state_inv n ⟨s ++ 0 :: post, 0, 0⟩ st (le_refl _) h
    exact ⟨a, c⟩

theorem url_decode_inplace_well_escaped_witness :
    (∃ b, url_decode_inplace (bytes_of "a+%2Fb%7e" ++ 0 :: [1, 2]) = some (0, b) ∧
      (cstring b).length ≤ (bytes_of "a+%2Fb%7e").length) ∧
    (∀ n st, url_decode_state n ⟨bytes_of "a+%2Fb%7e" ++ 0 :: [1, 2], 0, 0⟩ = some st →
      st.w ≤ st.r ∧
        ∀ i, st.r ≤ i → st.buf.getD i 0 = (bytes_of "a+%2Fb%7e" ++ 0 :: [1, 2]).getD i 0) :=
  url_decode_inplace_well_escaped (bytes_of "a+%2Fb%7e") [1, 2] (by decide) (by decide)

/-- C5: for every sequence of non-NUL ASCII bytes, writing it in URL form
(space as `+`; `+`, `%` and any chosen set of further bytes as `%` and two
hexadecimal digits of either case; the rest literally) and decoding that with
`url_decode_inplace` returns 0 and leaves exactly the original bytes as the
string of the buffer. -/
theorem url_decode_inplace_roundtrip (escape : Nat → Bool) (upper : Bool)
    (s post : List Nat) (hs : ∀ b ∈ s, 0 < b ∧ b < 128) :
    ∃ b, url_decode_inplace (spec_url_encode escape upper s ++ 0 :: post) = some (0, b) ∧
      cstring b = s := by
  have hn := noNul_spec_url_encode escape upper s hs
  have hrun := url_decode_inplace_spec (spec_url_encode escape upper s) post hn
  rw [url_decoded_spec_url_encode escape upper s hs] at hrun
  obtain ⟨tail, ht⟩ := hrun
  refine ⟨_, ht, ?_⟩
  rw [List.nil_append, cstring_append_nul]
  exact cstring_of_noNul s (fun b hb => by have := (hs b hb).1; omega)

theorem url_decode_inplace_roundtrip_witness :
    ∃ b, url_decode_inplace
        (spec_url_encode (fun c => c == '/'.toNat) true (bytes_of "a b+c%/d") ++ 0 :: []) =
          some (0, b) ∧
      cstring b = bytes_of "a b+c%/d" :=
  url_decode_inplace_roundtrip (fun c => c == '/'.toNat) true (bytes_of "a b+c%/d") []
    (by decide)

/-! ## Claim C7: the receive loop of `udp_fetch_file` -/

theorem udp_fetch_loop_done (realloc_ok : Nat → Bool) (hre : ∀ n, realloc_ok n = true)
    (rest : List (Option (List Nat))) :
    ∀ (chunks : List (List Nat)) (buf : List Nat) (cap : Nat),
      (∀ p ∈ chunks, p.length ≤ 4096 ∧ p ≠ bytes_of "DONE" ∧
        ¬ bytes_of "File Not Found" <+: p) →
      udp_fetch_loop realloc_ok (chunks.map some ++ some (bytes_of "DONE") :: rest) buf cap =
        (0, buf ++ chunks.flatten) := by
  intro chunks
  induction chunks with
  | nil =>
    intro buf cap _
    simp [udp_fetch_loop, UDP_CHUNK, bytes_of]
  | cons p ps ih =>
    intro buf cap h
    obtain ⟨hlen, hdone, hfnf⟩ := h p (by simp)
    have hps := fun q hq => h q (List.mem_cons_of_mem p hq)
    have htake : p.take UDP_CHUNK = p := List.take_of_length_le hlen
    have h1 : ¬ (p.length = 4 ∧ p.take 4 = bytes_of "DONE") := by
      rintro ⟨a, b⟩
      rw [List.take_of_length_le (by omega)] at b
      exact hdone b
    have h2 : ¬ (p.length ≥ 14 ∧ p.take 14 = bytes_of "File Not Found") := by
      rintro ⟨_, b⟩
      exact hfnf (b ▸ List.take_prefix 14 p)
    simp only [List.map_cons, List.cons_append, udp_fetch_loop, htake, h1, h2, if_false, hre,
      if_true, List.append_eq]
    split_ifs <;> rw [ih _ _ hps] <;> simp

/-- C7 (as stated, refuted): a 15-byte datagram that begins with
`File Not Found` is no 14-byte `File Not Found` datagram, yet when it comes
before `DONE`, with no receive error, `udp_fetch_file` returns -2 and hands
back no buffer. -/
theorem udp_fetch_file_long_not_found :
    (bytes_of "File Not Found!").length = 15 ∧
      udp_fetch_file
        ⟨true, true, true, fun _ => true,
          [some (bytes_of "File Not Found!"), some (bytes_of "DONE")]⟩ (bytes_of "photo") =
        (-2, []) := by
  decide

/-- C7 (amended): when the socket, the send and the allocations succeed and
the datagrams received before the first 4-byte `DONE` datagram are each at
most 4096 bytes and none of them begins with the 14 bytes `File Not Found`,
`udp_fetch_file` returns 0 with the in-order concatenation of their payloads,
whose length is the sum of their sizes. -/
theorem udp_fetch_file_done (env : UdpEnv) (name : List Nat) (chunks : List (List Nat))
    (rest : List (Option (List Nat)))
    (hsock : env.socket_ok = true) (hsend : env.sendto_ok = true)
    (hmalloc : env.malloc_ok = true) (hre : ∀ n, env.realloc_ok n = true)
    (hdata : env.datagrams = chunks.map some ++ some (bytes_of "DONE") :: rest)
    (hchunks : ∀ p ∈ chunks, p.length ≤ 4096 ∧ p ≠ bytes_of "DONE" ∧
      ¬ bytes_of "File Not Found" <+: p) :
    udp_fetch_file env name = (0, chunks.flatten) ∧
      chunks.flatten.length = (chunks.map List.length).sum := by
  refine ⟨?_, List.length_flatten chunks⟩
  unfold udp_fetch_file
  simp only [hsock, hsend, hmalloc, not_true_eq_false, if_false, hdata]
  rw [udp_fetch_loop_done env.realloc_ok hre rest chunks [] 8192 hchunks]
  simp

theorem udp_fetch_file_done_witness :
    udp_fetch_file
        ⟨true, true, true, fun _ => true,
          [some [1, 2], some (bytes_of "DONE!"), some (bytes_of "DONE"), none]⟩ [9] =
        (0, [[1, 2], bytes_of "DONE!"].flatten) ∧
      [[1, 2], bytes_of "DONE!"].flatten.length =
        ([[1, 2], bytes_of "DONE!"].map List.length).sum :=
  udp_fetch_file_done
    ⟨true, true, true, fun _ => true,
      [some [1, 2], some (bytes_of "DONE!"), some (bytes_of "DONE"), none]⟩ [9]
    [[1, 2], bytes_of "DONE!"] [none] rfl rfl rfl (fun _ => rfl) rfl (by decide)

/-! ## Claim C9: `mapToPath` on a directory -/

theorem int_cast_of_lt (n : Nat) (h : n < 2 ^ 31) : int_cast n = (n : Int) := by
  unfold int_cast
  have h1 : n % 2 ^ 32 = n := Nat.mod_eq_of_lt (by omega)
  rw [h1, if_pos h]

theorem getD_last_ne_slash (uri : List Nat) (h : ¬ bytes_of "/" <:+ uri) :
    (bytes_of "Webpage" ++ uri).getD ((bytes_of "Webpage" ++ uri).length - 1) 0 ≠ 47 := by
  rcases List.eq_nil_or_concat uri with rfl | ⟨init, x, hcat⟩
  · decide
  · rw [List.concat_eq_append] at hcat
    subst hcat
    have hx : x ≠ 47 := by
      rintro rfl
      exact h ⟨init, rfl⟩
    have hlen : (bytes_of "Webpage" ++ (init ++ [x])).length - 1 =
        (bytes_of "Webpage" ++ init).length := by simp
    rw [hlen, ← List.append_assoc, List.getD_append_right _ _ _ _ (le_refl _)]
    simpa using hx

/-- C9: when the URI does not end in `/`, `Webpage` + URI names a directory
and `Webpage` + URI + `/index.html` with its terminator fits the path buffer,
`mapToPath` returns 0 and leaves exactly `Webpage` + URI + `/` + `index.html`
in the buffer. -/
theorem mapToPath_directory (is_dir : List Nat → Bool) (uri : List Nat) (pathsize : Nat)
    (hsize : pathsize < 2 ^ 31)
    (hend : ¬ bytes_of "/" <:+ uri)
    (hdir : is_dir (bytes_of "Webpage" ++ uri) = true)
    (hfit : (bytes_of "Webpage" ++ uri ++ bytes_of "/index.html").length < pathsize) :
    mapToPath is_dir uri pathsize =
      (0, bytes_of "Webpage" ++ uri ++ bytes_of "/" ++ bytes_of "index.html") := by
  have hlen : (bytes_of "Webpage" ++ uri ++ bytes_of "/index.html").length =
      (bytes_of "Webpage" ++ uri).length + 11 := by
    rw [List.length_append]; rfl
  rw [hlen] at hfit
  have hlast := getD_last_ne_slash uri hend
  have htake : (bytes_of "Webpage" ++ uri).take (pathsize - 1) = bytes_of "Webpage" ++ uri :=
    List.take_of_length_le (by omega)
  have hidx : (bytes_of "index.html").length = 10 := rfl
  have htake2 : (bytes_of "index.html").take
      (pathsize - ((bytes_of "Webpage" ++ uri).length + 1) - 1) = bytes_of "index.html" :=
    List.take_of_length_le (by rw [hidx]; omega)
  have hc1 : ¬ (((bytes_of "Webpage" ++ uri).length : Int) ≥ int_cast pathsize) := by
    rw [int_cast_of_lt _ hsize]; omega
  have hc2 : ¬ ((bytes_of "Webpage" ++ uri).length + 1 ≥ pathsize) := by omega
  have hc3 : ¬ (((bytes_of "index.html").length : Int) ≥
      int_cast (pathsize - ((bytes_of "Webpage" ++ uri).length + 1))) := by
    rw [int_cast_of_lt _ (by omega), hidx]; omega
  simp only [mapToPath, snprintf, htake, hc1, if_false, hdir, if_true, hc2, Char.reduceToNat,
    ne_eq, hlast, not_false_eq_true, List.length_singleton, htake2, hc3]
  rfl

theorem mapToPath_directory_witness :
    mapToPath (fun p => p == bytes_of "Webpage/img") (bytes_of "/img") 4096 =
      (0, bytes_of "Webpage" ++ bytes_of "/img" ++ bytes_of "/" ++ bytes_of "index.html") :=
  mapToPath_directory (fun p => p == bytes_of "Webpage/img") (bytes_of "/img") 4096
    (by decide) (by decide) (by decide) (by decide)

/-! ## Claim C10: `guess_mime` -/

theorem strrchr_eq_none_iff (s : List Nat) (c : Nat) : strrchr s c = none ↔ c ∉ s := by
  induction s with
  | nil => simp [strrchr]
  | cons x xs ih =>
    unfold strrchr
    cases h : strrchr xs c with
    | some r =>
      have : c ∈ xs := by
        by_contra hc
        rw [ih.mpr hc] at h
        cases h
      simp [this]
    | none =>
      have hc := ih.mp h
      by_cases hx : x = c
      · simp [hx]
      · simp [hx, hc, Ne.symm hx]

theorem strrchr_suffix (s : List Nat) (c : Nat) (r : List Nat) (h : strrchr s c = some r) :
    r <:+ s := by
  induction s with
  | nil => simp [strrchr] at h
  | cons x xs ih =>
    unfold strrchr at h
    cases h1 : strrchr xs c with
    | some r1 =>
      rw [h1] at h
      simp only [Option.some.injEq] at h
      subst h
      exact (ih h1).trans (List.suffix_cons x xs)
    | none =>
      rw [h1] at h
      by_cases hx : x = c
      · simp only [hx, if_true, Option.some.injEq] at h
        rw [← h, hx]
      · simp [hx] at h

theorem strrchr_of_suffix (s e : List Nat) (c : Nat) (hc : c ∉ e) (h : (c :: e) <:+ s) :
    strrchr s c = some (c :: e) := by
  obtain ⟨pre, rfl⟩ := h
  induction pre with
  | nil =>
    simp [strrchr, (strrchr_eq_none_iff e c).mpr hc]
  | cons x xs ih =>
    simp only [List.cons_append, strrchr, List.append_eq, ih]

theorem noNul_of_suffix (r s : List Nat) (h : r <:+ s) (hs : NoNul s) : NoNul r :=
  fun b hb => hs b (h.subset hb)

/-- C10: on a path (a C string) that ends with one of the nine suffixes of
the fixed table `guess_mime` returns the type the table gives for it, and on
every other path, with another extension or with no `.` at all, it returns
`application/octet-stream`. -/
theorem guess_mime_table (path : List Nat) (hp : NoNul path) :
    (∀ e ∈ spec_mime_table, bytes_of e.1 <:+ path → guess_mime path = e.2) ∧
    ((∀ e ∈ spec_mime_table, ¬ bytes_of e.1 <:+ path) →
      guess_mime path = "application/octet-stream") := by
  constructor
  · intro e he hsuf
    simp only [spec_mime_table, List.mem_cons, List.mem_singleton, List.not_mem_nil,
      or_false] at he
    rcases he with rfl | rfl | rfl | rfl | rfl | rfl | rfl | rfl | rfl <;>
    · have hr := strrchr_of_suffix path _ 46 (by decide) hsuf
      simp only [guess_mime, Char.reduceToNat, hr]
      decide
  · intro hnone
    unfold guess_mime
    cases hr : strrchr path '.'.toNat with
    | none => rfl
    | some dot =>
      have hsuf := strrchr_suffix path _ dot hr
      have hdot := noNul_of_suffix dot path hsuf hp
      have hne : ∀ e ∈ spec_mime_table, strcmp dot (bytes_of e.1) ≠ 0 := by
        intro e he h0
        have hlit : NoNul (bytes_of e.1) := by
          simp only [spec_mime_table, List.mem_cons, List.mem_singleton, List.not_mem_nil,
            or_false] at he
          rcases he with rfl | rfl | rfl | rfl | rfl | rfl | rfl | rfl | rfl <;> decide
        rw [strcmp_eq_zero_iff dot _ hdot hlit] at h0
        exact hnone e he (h0 ▸ hsuf)
      have h1 := hne (".html", "text/html") (by decide)
      have h2 := hne (".htm", "text/html") (by decide)
      have h3 := hne (".css", "text/css") (by decide)
      have h4 := hne (".js", "application/javascript") (by decide)
      have h5 := hne (".png", "image/png") (by decide)
      have h6 := hne (".jpg", "image/jpeg") (by decide)
      have h7 := hne (".jpeg", "image/jpeg") (by decide)
      have h8 := hne (".gif", "image/gif") (by decide)
      have h9 := hne (".txt", "text/plain") (by decide)
      simp only [h1, h2, h3, h4, h5, h6, h7, h8, h9, or_self, if_false]

theorem guess_mime_table_witness :
    (∀ e ∈ spec_mime_table, bytes_of e.1 <:+ bytes_of "Webpage/a.b/pic.jpeg" →
      guess_mime (bytes_of "Webpage/a.b/pic.jpeg") = e.2) ∧
    ((∀ e ∈ spec_mime_table, ¬ bytes_of e.1 <:+ bytes_of "Webpage/a.b/pic.jpeg") →
      guess_mime (bytes_of "Webpage/a.b/pic.jpeg") = "application/octet-stream") :=
  guess_mime_table (bytes_of "Webpage/a.b/pic.jpeg") (by decide)

/-! ## Claim C2: no path separator reaches the datastore -/

theorem url_decode_inplace_of_empty (v : List Nat) (h : v.getD 0 0 = 0) :
    url_decode_inplace (v ++ [0]) = some (0, v ++ [0]) ∧ cstring (v ++ [0]) = [] := by
  have h0 : (v ++ [0]).getD 0 0 = 0 := by
    cases v with
    | nil => rfl
    | cons x xs => simpa using h
  have hset : (v ++ [0]).set 0 0 = v ++ [0] := by
    cases v with
    | nil => rfl
    | cons x xs =>
      have : x = 0 := by simpa using h
      simp [this]
  constructor
  · simp only [url_decode_inplace, url_decode_run, url_decode_step, h0, if_true, hset]
  · cases v with
    | nil => rfl
    | cons x xs =>
      have : x = 0 := by simpa using h
      simp [cstring, this]

theorem serve_static_fields (env : Env) (uri : List Nat) :
    (serve_static env uri).fetched = none ∧ (serve_static env uri).mapped = some uri := by
  unfold serve_static
  dsimp only
  split_ifs <;> exact ⟨rfl, rfl⟩

theorem serve_record_fetched (env : Env) (catkey : List Nat) (served : Served)
    (name : List Nat) (h : serve_record env catkey = some served)
    (hn : served.fetched = some name) :
    name.any (fun c => c == '/'.toNat || c == '\\'.toNat) = false := by
  unfold serve_record at h
  split at h
  · cases h
  · next rc buf _ =>
    by_cases h1 : rc ≠ 0
    · rw [if_pos h1] at h
      cases h
      simp at hn
    · rw [if_neg h1] at h
      by_cases h2 : (cstring buf).any (fun c => c == '/'.toNat || c == '\\'.toNat) = true
      · rw [if_pos h2] at h
        cases h
        simp at hn
      · rw [if_neg h2] at h
        have hf : served.fetched = some (cstring buf) := by
          dsimp only at h
          split_ifs at h <;> (cases h; rfl)
        rw [hf] at hn
        simp only [Option.some.injEq] at hn
        subst hn
        simpa using h2

/-- C2: when the value of `key` that the handler decodes leaves a string
with a `/` or a `\` in the buffer, the request is answered 400 Bad Request
and `udp_fetch_file` is not called; and whenever `udp_fetch_file` is called,
the record name it is given holds neither `/` nor `\`. -/
theorem dispatch_no_separator (env : Env) (uri : List Nat) :
    (∀ v b, get_qparam uri (bytes_of "key") 512 = some (some v) →
      url_decode_inplace (v ++ [0]) = some (0, b) →
      ('/'.toNat ∈ cstring b ∨ '\\'.toNat ∈ cstring b) →
      dispatch env uri = some ⟨some "400 Bad Request", none, none⟩) ∧
    (∀ served name, dispatch env uri = some served → served.fetched = some name →
      '/'.toNat ∉ name ∧ '\\'.toNat ∉ name) := by
  constructor
  · intro v b hq hd hsep
    unfold dispatch
    by_cases hbad : bad_uri uri ≠ 0
    · rw [if_pos hbad]
    · rw [if_neg hbad, hq]
      have hv : v.getD 0 0 ≠ 0 := by
        intro h0
        obtain ⟨e1, e2⟩ := url_decode_inplace_of_empty v h0
        rw [e1] at hd
        simp only [Option.some.injEq, Prod.mk.injEq, true_and] at hd
        rw [← hd, e2] at hsep
        simp at hsep
      simp only [hv, ne_eq, not_false_eq_true, if_true, serve_record, hd, not_true_eq_false,
        if_false]
      have hany : (cstring b).any (fun c => c == '/'.toNat || c == '\\'.toNat) = true := by
        rw [List.any_eq_true]
        rcases hsep with h | h
        · exact ⟨_, h, by simp⟩
        · exact ⟨_, h, by simp⟩
      rw [if_pos hany]
  · intro served name hs hn
    have hany : name.any (fun c => c == '/'.toNat || c == '\\'.toNat) = false := by
      unfold dispatch at hs
      split_ifs at hs with hbad
      · simp only [Option.some.injEq] at hs
        subst hs
        simp at hn
      · split at hs
        · cases hs
        · simp only [Option.some.injEq] at hs
          subst hs
          rw [(serve_static_fields env uri).1] at hn
          cases hn
        · next catkey _ =>
          split_ifs at hs with h0
          · exact serve_record_fetched env catkey served name hs hn
          · simp only [Option.some.injEq] at hs
            subst hs
            rw [(serve_static_fields env uri).1] at hn
            cases hn
    rw [List.any_eq_false] at hany
    constructor
    · intro hm
      exact hany _ hm (by simp)
    · intro hm
      exact hany _ hm (by simp)

/-! ## Claim C6: the request line -/

theorem split_at_cons (sep : Nat → Bool) (c : Nat) (cs : List Nat) :
    split_at sep (c :: cs) =
      if sep c then [] :: split_at sep cs
      else
        match split_at sep cs with
        | [] => [[c]]
        | p :: ps => (c :: p) :: ps := by
  rw [split_at]

theorem split_at_eq (sep : Nat → Bool) (s : List Nat) :
    split_at sep s = s.takeWhile (fun c => !sep c) ::
      (match s.dropWhile (fun c => !sep c) with
       | [] => []
       | _ :: r => split_at sep r) := by
  induction s with
  | nil => rfl
  | cons c cs ih =>
    rw [split_at_cons]
    by_cases hc : sep c = true
    · simp [hc]
    · have hc1 : sep c = false := by simpa using hc
      rw [ih]
      simp [hc1]

theorem split_at_length_le (sep : Nat → Bool) (s : List Nat) :
    ∀ t ∈ split_at sep s, t.length ≤ s.length := by
  induction s with
  | nil => intro t ht; simp [split_at] at ht; simp [ht]
  | cons c cs ih =>
    intro t ht
    rw [split_at_cons] at ht
    by_cases hc : sep c = true
    · simp only [hc, if_true, List.mem_cons] at ht
      rcases ht with rfl | ht
      · simp
      · have := ih t ht
        simp; omega
    · simp only [hc, Bool.false_eq_true, if_false] at ht
      cases hsp : split_at sep cs with
      | nil =>
        rw [hsp] at ht
        simp at ht
        simp [ht]
      | cons q qs =>
        rw [hsp] at ht ih
        simp only [List.mem_cons] at ht
        rcases ht with rfl | ht
        · have := ih q (by simp)
          simp; omega
        · have := ih t (by simp [ht])
          simp; omega

theorem dropWhile_head_false (p : Nat → Bool) (l r : List Nat) (x : Nat)
    (h : l.dropWhile p = x :: r) : p x = false := by
  induction l with
  | nil => simp at h
  | cons c cs ih =>
    by_cases hc : p c = true
    · rw [List.dropWhile_cons_of_pos hc] at h
      exact ih h
    · rw [List.dropWhile_cons_of_neg hc] at h
      simp only [List.cons.injEq] at h
      rw [← h.1]
      simpa using hc

theorem drop_length_takeWhile (p : Nat → Bool) (l : List Nat) :
    l.drop (l.takeWhile p).length = l.dropWhile p := by
  induction l with
  | nil => rfl
  | cons c cs ih =>
    by_cases hc : p c = true
    · simp [List.takeWhile_cons, List.dropWhile_cons, hc, ih]
    · simp [List.takeWhile_cons, List.dropWhile_cons, hc]

theorem ws_tokens_nil : ws_tokens [] = [] := rfl

theorem ws_tokens_cons_space (c : Nat) (cs : List Nat) (h : isspace c = true) :
    ws_tokens (c :: cs) = ws_tokens cs := by
  simp [ws_tokens, split_at_cons, h]

theorem ws_tokens_dropWhile (s : List Nat) : ws_tokens (s.dropWhile isspace) = ws_tokens s := by
  induction s with
  | nil => rfl
  | cons c cs ih =>
    by_cases hc : isspace c = true
    · rw [List.dropWhile_cons_of_pos hc, ih, ws_tokens_cons_space c cs hc]
    · rw [List.dropWhile_cons_of_neg hc]

theorem ws_tokens_cons_nonspace (c : Nat) (cs : List Nat) (h : isspace c = false) :
    ws_tokens (c :: cs) = (c :: cs).takeWhile (fun x => !isspace x) ::
      ws_tokens ((c :: cs).dropWhile (fun x => !isspace x)) := by
  have htw : (c :: cs).takeWhile (fun x => !isspace x) =
      c :: cs.takeWhile (fun x => !isspace x) := by
    simp [List.takeWhile_cons, h]
  have e : ws_tokens (c :: cs) = (c :: cs).takeWhile (fun x => !isspace x) ::
      (match (c :: cs).dropWhile (fun x => !isspace x) with
       | [] => []
       | _ :: r => ws_tokens r) := by
    unfold ws_tokens
    rw [split_at_eq, htw]
    cases (c :: cs).dropWhile (fun x => !isspace x) <;> simp
  rw [e]
  congr 1
  cases hd : (c :: cs).dropWhile (fun x => !isspace x) with
  | nil => rfl
  | cons x r =>
    have hx := dropWhile_head_false _ _ _ _ hd
    have hx1 : isspace x = true := by simpa using hx
    exact (ws_tokens_cons_space x r hx1).symm

theorem scan_s_eq_none (w : Nat) (s : List Nat) (h : ws_tokens s = []) : scan_s w s = none := by
  unfold scan_s
  cases hd : s.dropWhile isspace with
  | nil => simp
  | cons c cs =>
    have hc := dropWhile_head_false _ _ _ _ hd
    rw [← ws_tokens_dropWhile, hd, ws_tokens_cons_nonspace c cs hc] at h
    cases h

theorem scan_s_eq_some (w : Nat) (s t : List Nat) (ts : List (List Nat))
    (h : ws_tokens s = t :: ts) (hw : t.length ≤ w) :
    ∃ rest, scan_s w s = some (t, rest) ∧ ws_tokens rest = ts := by
  unfold scan_s
  cases hd : s.dropWhile isspace with
  | nil =>
    rw [← ws_tokens_dropWhile, hd] at h
    cases h
  | cons c cs =>
    have hc := dropWhile_head_false _ _ _ _ hd
    rw [← ws_tokens_dropWhile, hd, ws_tokens_cons_nonspace c cs hc] at h
    simp only [List.cons.injEq] at h
    obtain ⟨h1, h2⟩ := h
    refine ⟨(c :: cs).dropWhile (fun x => !isspace x), ?_, h2⟩
    simp only [reduceCtorEq, if_false, h1, List.take_of_length_le hw]
    rw [← h1, drop_length_takeWhile]

/-- The parse of a line with fewer than three tokens, the first of at most
15 bytes and the rest of at most 4095: `sscanf` does not return 3. -/
theorem sscanf_reqline_few_tokens (line : List Nat)
    (htok : (ws_tokens line).length < 3)
    (hfirst : ∀ t, (ws_tokens line).head? = some t → t.length ≤ 15)
    (hall : ∀ t ∈ ws_tokens line, t.length ≤ 4095) :
    (sscanf_reqline line).count ≠ 3 := by
  unfold sscanf_reqline
  cases h : ws_tokens line with
  | nil =>
    rw [scan_s_eq_none 15 line h]
    decide
  | cons t1 ts =>
    have ht1 : t1.length ≤ 15 := hfirst t1 (by rw [h]; rfl)
    obtain ⟨r1, e1, hr1⟩ := scan_s_eq_some 15 line t1 ts h ht1
    rw [e1]
    cases ts with
    | nil =>
      simp only [scan_s_eq_none 4095 r1 hr1]
      decide
    | cons t2 ts2 =>
      have ht2 : t2.length ≤ 4095 := hall t2 (by rw [h]; simp)
      obtain ⟨r2, e2, hr2⟩ := scan_s_eq_some 4095 r1 t2 ts2 hr1 ht2
      simp only [e2]
      cases ts2 with
      | nil =>
        simp only [scan_s_eq_none 15 r2 hr2]
        decide
      | cons t3 ts3 =>
        rw [h] at htok
        simp at htok
        omega

theorem ws_tokens_length_le (line : List Nat) : ∀ t ∈ ws_tokens line, t.length ≤ line.length := by
  intro t ht
  unfold ws_tokens at ht
  exact split_at_length_le isspace line t (List.mem_of_mem_filter ht)

/-- C6 (as stated, refuted): a request line of four tokens is served by its
first three (here with 200 OK), and a line of two tokens whose first is
longer than 15 bytes is split by the field width and answered 501. -/
theorem handle_request_token_count_not_checked :
    ((ws_tokens (bytes_of "GET /index.html HTTP/1.0 extra")).length = 4 ∧
      handle_request sample_env (bytes_of "GET /index.html HTTP/1.0 extra")
          ⟨bytes_of "\r\n", true⟩ =
        some ⟨some "200 OK", none, some (bytes_of "/index.html")⟩) ∧
    ((ws_tokens (bytes_of "AAAAAAAAAAAAAAAAB C")).length = 2 ∧
      handle_request sample_env (bytes_of "AAAAAAAAAAAAAAAAB C") ⟨bytes_of "\r\n", true⟩ =
        some ⟨some "501 Not Implemented", none, none⟩) := by
  decide

/-- The parse of a line with three or more tokens, the first and the third
of at most 15 bytes and the second of at most 4095: `sscanf` returns 3 and
stores the first three tokens, whatever follows them. -/
theorem sscanf_reqline_three_tokens (line t1 t2 t3 : List Nat) (rest : List (List Nat))
    (h : ws_tokens line = t1 :: t2 :: t3 :: rest)
    (h1 : t1.length ≤ 15) (h2 : t2.length ≤ 4095) (h3 : t3.length ≤ 15) :
    sscanf_reqline line = ⟨3, t1, t2, t3⟩ := by
  obtain ⟨r1, e1, hr1⟩ := scan_s_eq_some 15 line t1 _ h h1
  obtain ⟨r2, e2, hr2⟩ := scan_s_eq_some 4095 r1 t2 _ hr1 h2
  obtain ⟨r3, e3, _⟩ := scan_s_eq_some 15 r2 t3 _ hr2 h3
  simp only [sscanf_reqline, e1, e2, e3]

/-- C6 (amended): a request line of at most 4095 bytes with fewer than three
whitespace-separated tokens, the first of them at most 15 bytes long, is
answered 400 Bad Request, and neither the datastore nor the static path
resolver is called; a line with three or more tokens, the first and the
third at most 15 bytes long, is parsed as its first three tokens, whatever
follows them. -/
theorem handle_request_token_count (env : Env) (line : List Nat) (conn : Conn)
    (hlen : line.length ≤ 4095) :
    ((ws_tokens line).length < 3 →
      (∀ t, (ws_tokens line).head? = some t → t.length ≤ 15) →
      handle_request env line conn = some ⟨some "400 Bad Request", none, none⟩) ∧
    (∀ t1 t2 t3 rest, ws_tokens line = t1 :: t2 :: t3 :: rest →
      t1.length ≤ 15 → t3.length ≤ 15 → sscanf_reqline line = ⟨3, t1, t2, t3⟩) := by
  have hall : ∀ t ∈ ws_tokens line, t.length ≤ 4095 :=
    fun t ht => le_trans (ws_tokens_length_le line t ht) hlen
  constructor
  · intro htok hfirst
    have hcount := sscanf_reqline_few_tokens line htok hfirst hall
    unfold handle_request
    simp only [hcount, ne_eq, not_false_eq_true, if_true]
  · intro t1 t2 t3 rest h h1 h3
    exact sscanf_reqline_three_tokens line t1 t2 t3 rest h h1 (hall t2 (by rw [h]; simp)) h3

theorem handle_request_token_count_witness :
    handle_request sample_env (bytes_of "GET /index.html") ⟨bytes_of "\r\n", true⟩ =
        some ⟨some "400 Bad Request", none, none⟩ ∧
      sscanf_reqline (bytes_of "GET /a HTTP/1.0 x y") =
        ⟨3, bytes_of "GET", bytes_of "/a", bytes_of "HTTP/1.0"⟩ :=
  ⟨(handle_request_token_count sample_env (bytes_of "GET /index.html")
      ⟨bytes_of "\r\n", true⟩ (by decide)).1 (by decide) (by decide),
    (handle_request_token_count sample_env (bytes_of "GET /a HTTP/1.0 x y")
      ⟨bytes_of "\r\n", true⟩ (by decide)).2 (bytes_of "GET") (bytes_of "/a")
      (bytes_of "HTTP/1.0") [bytes_of "x", bytes_of "y"] (by decide) (by decide) (by decide)⟩

theorem dispatch_no_separator_witness :
    get_qparam (bytes_of "/?key=a%2Fb") (bytes_of "key") 512 = some (some (bytes_of "a%2Fb")) ∧
      url_decode_inplace (bytes_of "a%2Fb" ++ [0]) = some (0, bytes_of "a/b" ++ [0, 98, 0]) ∧
      dispatch sample_env (bytes_of "/?key=a%2Fb") =
        some ⟨some "400 Bad Request", none, none⟩ :=
  ⟨by decide, by decide,
    (dispatch_no_separator sample_env (bytes_of "/?key=a%2Fb")).1 (bytes_of "a%2Fb")
      (bytes_of "a/b" ++ [0, 98, 0]) (by decide) (by decide) (by decide)⟩

/-- A decoded NUL ends the record name: for `key=a%00/b` the decoder leaves
the string `a` in the buffer, the bytes after the NUL are neither scanned
nor sent, and the record `a` is fetched. -/
theorem dispatch_decoded_nul_ends_name :
    dispatch sample_env (bytes_of "/?key=a%00/b") =
      some ⟨some "200 OK", some (bytes_of "a"), none⟩ := by
  decide

/-! ## Claim C8: requests without a usable `key` go to the static resolver -/

theorem strchr_eq (s : List Nat) (c : Nat) :
    strchr s c = if c ∈ s then some (s.dropWhile (fun x => x != c)) else none := by
  induction s with
  | nil => simp [strchr]
  | cons x xs ih =>
    unfold strchr
    by_cases hx : x = c
    · simp [hx]
    · rw [if_neg hx, ih]
      have hne : (x != c) = true := by simpa using hx
      simp [List.dropWhile_cons, hne, Ne.symm hx]

theorem skip_param_eq (q : List Nat) :
    skip_param q = (q.dropWhile (fun x => x != '&'.toNat)).drop 1 := by
  induction q with
  | nil => rfl
  | cons x xs ih =>
    unfold skip_param
    by_cases hx : x = '&'.toNat
    · simp [hx]
    · have hne : (x != '&'.toNat) = true := by simpa using hx
      have e : (x :: xs).dropWhile (fun y => y != '&'.toNat) =
          xs.dropWhile (fun y => y != '&'.toNat) := by
        rw [List.dropWhile_cons, if_pos hne]
      rw [if_neg hx, ih, e]

theorem copy_value_eq (cap : Nat) (l : List Nat) :
    ∀ i, copy_value cap l i = (l.takeWhile (fun x => x != '&'.toNat)).take (cap - 1 - i) := by
  induction l with
  | nil => intro i; simp [copy_value]
  | cons x xs ih =>
    intro i
    unfold copy_value
    by_cases hx : x = '&'.toNat
    · simp [hx]
    · have hne : (x != '&'.toNat) = true := by simpa using hx
      by_cases hi : i + 1 < cap
      · have hk : cap - 1 - i = (cap - 1 - (i + 1)) + 1 := by omega
        simp only [ne_eq, hx, not_false_eq_true, hi, and_self, if_true, ih]
        rw [List.takeWhile_cons, if_pos hne, hk, List.take_succ_cons]
      · have hk : cap - 1 - i = 0 := by omega
        simp [hi, hk]

theorem isPrefixOf_takeWhile (p : Nat → Bool) :
    ∀ (needle q : List Nat), (∀ x ∈ needle, p x = true) →
      needle.isPrefixOf (q.takeWhile p) = needle.isPrefixOf q := by
  intro needle
  induction needle with
  | nil => intro q _; simp
  | cons a as ih =>
    intro q h
    cases q with
    | nil => simp
    | cons x xs =>
      have ha : p a = true := h a (by simp)
      by_cases hx : p x = true
      · rw [List.takeWhile_cons_of_pos hx]
        simp only [List.isPrefixOf]
        rw [ih xs (fun y hy => h y (by simp [hy]))]
      · rw [List.takeWhile_cons_of_neg hx]
        have hax : a ≠ x := fun e => hx (e ▸ ha)
        simp [List.isPrefixOf, hax]

theorem key_match_iff (p : List Nat) :
    ((bytes_of "key").isPrefixOf p = true ∧ p.getD (bytes_of "key").length 0 = '='.toNat) ↔
      is_key_param p = true := by
  have hk : bytes_of "key" = [107, 101, 121] := rfl
  have hk4 : bytes_of "key=" = [107, 101, 121, 61] := rfl
  unfold is_key_param
  rw [hk, hk4]
  rcases p with _ | ⟨a, _ | ⟨b, _ | ⟨c, _ | ⟨d, t⟩⟩⟩⟩
  · simp [List.isPrefixOf]
  · simp [List.isPrefixOf]
  · simp [List.isPrefixOf]
  · simp [List.isPrefixOf]
  · simp only [List.isPrefixOf, Bool.and_eq_true, beq_iff_eq, List.length_cons,
      List.length_nil, List.getD_cons_succ, List.getD_cons_zero, Char.reduceToNat, Bool.and_true]
    constructor
    · rintro ⟨⟨h1, h2, h3⟩, h4⟩
      exact ⟨h1, h2, h3, h4.symm⟩
    · rintro ⟨h1, h2, h3, h4⟩
      exact ⟨⟨h1, h2, h3⟩, h4.symm⟩

theorem is_key_param_takeWhile (q : List Nat) :
    is_key_param (q.takeWhile (fun x => x != '&'.toNat)) = is_key_param q := by
  unfold is_key_param
  exact isPrefixOf_takeWhile _ _ q (by decide)

theorem drop_four_takeWhile (q : List Nat) (h : is_key_param q = true) :
    (q.takeWhile (fun x => x != '&'.toNat)).drop 4 =
      (q.drop 4).takeWhile (fun x => x != '&'.toNat) := by
  unfold is_key_param at h
  obtain ⟨t, rfl⟩ := List.isPrefixOf_iff_prefix.mp h
  have hk4 : bytes_of "key=" = [107, 101, 121, 61] := rfl
  rw [hk4]
  simp [List.takeWhile_cons]

theorem split_amp_eq (q : List Nat) :
    split_at (fun c => c == '&'.toNat) q = q.takeWhile (fun x => x != '&'.toNat) ::
      (match q.dropWhile (fun x => x != '&'.toNat) with
       | [] => []
       | _ :: r => split_at (fun c => c == '&'.toNat) r) :=
  split_at_eq _ q

/-- The loop of `get_qparam` returns, and what it returns is the value of the
first parameter that reads `key=<value>`, cut to `cap - 1` bytes. -/
theorem get_qparam_loop_spec (cap : Nat) :
    ∀ (fuel : Nat) (q : List Nat), q.length < fuel →
      get_qparam_loop (bytes_of "key") cap fuel q =
        some (((split_at (fun c => c == '&'.toNat) q).find? is_key_param).map
          (fun p => (p.drop 4).take (cap - 1))) := by
  intro fuel
  induction fuel with
  | zero => intro q h; simp at h
  | succ fuel ih =>
    intro q hq
    cases q with
    | nil => rfl
    | cons x xs =>
      rw [get_qparam_loop, if_neg (by simp), split_amp_eq]
      by_cases hk : is_key_param (x :: xs) = true
      · rw [if_pos ((key_match_iff _).mpr hk)]
        have hk1 := (is_key_param_takeWhile (x :: xs)).trans hk
        rw [List.find?_cons_of_pos _ hk1]
        simp only [Option.map_some', Option.some.injEq]
        rw [drop_four_takeWhile _ hk, copy_value_eq]
        rfl
      · rw [if_neg (fun h => hk ((key_match_iff _).mp h))]
        have hk1 : ¬ is_key_param ((x :: xs).takeWhile (fun y => y != '&'.toNat)) = true := by
          rw [is_key_param_takeWhile]; exact hk
        rw [List.find?_cons_of_neg _ hk1, skip_param_eq]
        have hlen : ((x :: xs).dropWhile (fun y => y != '&'.toNat)).length ≤ (x :: xs).length :=
          (List.dropWhile_sublist _).length_le
        cases hd : (x :: xs).dropWhile (fun y => y != '&'.toNat) with
        | nil =>
          rw [List.drop_nil, ih [] (by simp at hq ⊢; omega)]
          rfl
        | cons a r =>
          rw [hd] at hlen
          rw [List.drop_one, List.tail_cons, ih r (by simp at hq hlen ⊢; omega)]

theorem get_qparam_spec (uri : List Nat) (cap : Nat) :
    get_qparam uri (bytes_of "key") cap =
      some (if '?'.toNat ∈ uri then
        ((query_params uri).find? is_key_param).map (fun p => (p.drop 4).take (cap - 1))
      else none) := by
  unfold get_qparam
  rw [strchr_eq]
  by_cases h : '?'.toNat ∈ uri
  · simp only [h, if_true]
    rw [get_qparam_loop_spec cap _ _ (by simp; omega)]
    rfl
  · simp only [h, if_false]

/-- C8: for a valid request target that has no `?`, or whose query string
has no parameter that reads `key=<value>`, or whose first such parameter has
an empty value, `get_qparam` yields `NULL` or the empty string, and the
request goes to `mapToPath` with the URI and never to `udp_fetch_file`. -/
theorem dispatch_static (env : Env) (uri : List Nat) (hvalid : bad_uri uri = 0)
    (h : '?'.toNat ∉ uri ∨ (∀ p ∈ query_params uri, is_key_param p = false) ∨
      (query_params uri).find? is_key_param = some (bytes_of "key=")) :
    (get_qparam uri (bytes_of "key") 512 = some none ∨
      get_qparam uri (bytes_of "key") 512 = some (some [])) ∧
    dispatch env uri = some (serve_static env uri) ∧
    (serve_static env uri).mapped = some uri ∧ (serve_static env uri).fetched = none := by
  have hq : get_qparam uri (bytes_of "key") 512 = some none ∨
      get_qparam uri (bytes_of "key") 512 = some (some []) := by
    rw [get_qparam_spec]
    rcases h with h | h | h
    · left; simp only [h, if_false]
    · left
      have : (query_params uri).find? is_key_param = none := by
        rw [List.find?_eq_none]
        intro p hp
        simp [h p hp]
      rw [this]
      split_ifs <;> rfl
    · by_cases hm : '?'.toNat ∈ uri
      · right
        simp only [hm, if_true, h]
        rfl
      · left; simp only [hm, if_false]
  refine ⟨hq, ?_, (serve_static_fields env uri).2, (serve_static_fields env uri).1⟩
  unfold dispatch
  rw [if_neg (by simp [hvalid])]
  rcases hq with hq | hq
  · rw [hq]
  · rw [hq]
    simp

theorem dispatch_static_witness :
    (get_qparam (bytes_of "/a.html?x=1&key=&key=b") (bytes_of "key") 512 = some none ∨
      get_qparam (bytes_of "/a.html?x=1&key=&key=b") (bytes_of "key") 512 = some (some [])) ∧
    dispatch sample_env (bytes_of "/a.html?x=1&key=&key=b") =
      some (serve_static sample_env (bytes_of "/a.html?x=1&key=&key=b")) ∧
    (serve_static sample_env (bytes_of "/a.html?x=1&key=&key=b")).mapped =
      some (bytes_of "/a.html?x=1&key=&key=b") ∧
    (serve_static sample_env (bytes_of "/a.html?x=1&key=&key=b")).fetched = none :=
  dispatch_static sample_env (bytes_of "/a.html?x=1&key=&key=b") (by decide)
    (Or.inr (Or.inr (by decide)))

/-- The part of `main` after the headers returns for every URI. -/
theorem dispatch_isSome (env : Env) (uri : List Nat) : (dispatch env uri).isSome := by
  unfold dispatch
  split_ifs
  · rfl
  · rw [get_qparam_spec]
    split
    · next h => cases h
    · rfl
    · next catkey _ =>
      split_ifs
      · unfold serve_record
        have := url_decode_inplace_isSome (catkey ++ [0])
        cases hd : url_decode_inplace (catkey ++ [0]) with
        | none => rw [hd] at this; cases this
        | some r =>
          obtain ⟨rc, buf⟩ := r
          dsimp only
          split_ifs <;> rfl
      · rfl

/-! ## The handler returns -/

theorem recv_line_loop_rest (bufsize : Nat) (closes : Bool) :
    ∀ (pending buf : List Nat),
      (recv_line_loop bufsize closes pending buf).2.2.length ≤ pending.length ∧
      ((recv_line_loop bufsize closes pending buf).1 = (buf.length : Int) ∨
        (recv_line_loop bufsize closes pending buf).1 = -1 ∨
        (recv_line_loop bufsize closes pending buf).2.2.length < pending.length) := by
  intro pending
  induction pending with
  | nil =>
    intro buf
    unfold recv_line_loop
    split_ifs <;> simp
  | cons c rest ih =>
    intro buf
    unfold recv_line_loop
    dsimp only
    split_ifs with h1 h2
    · simp
    · obtain ⟨a, b⟩ := ih (buf ++ [c])
      refine ⟨by simp; omega, Or.inr (Or.inr ?_)⟩
      simp
      omega
    · simp

/-- The header loop returns: every turn that goes on has read at least one
byte, so one turn per byte of the peer and one more suffice. -/
theorem drain_headers_isSome :
    ∀ (fuel : Nat) (conn : Conn), conn.bytes.length < fuel →
      (drain_headers fuel conn).isSome := by
  intro fuel
  induction fuel with
  | zero => intro conn h; simp at h
  | succ fuel ih =>
    intro conn h
    unfold drain_headers
    dsimp only
    split_ifs with h1 h2
    · rfl
    · rfl
    · apply ih
      obtain ⟨a, b⟩ := recv_line_loop_rest 2048 conn.closes conn.bytes []
      simp only [recv_line] at h1 ⊢
      rcases b with b | b | b
      · simp only [List.length_nil, Nat.cast_zero] at b
        omega
      · omega
      · omega

/-- The handler returns an outcome for every request line and connection. -/
theorem handle_request_isSome (env : Env) (line : List Nat) (conn : Conn) :
    (handle_request env line conn).isSome := by
  unfold handle_request
  dsimp only
  split_ifs
  · rfl
  · rfl
  · have := drain_headers_isSome (conn.bytes.length + 1) conn (by omega)
    split
    · next h => rw [h] at this; cases this
    · rfl
    · exact dispatch_isSome env _

theorem handle_connection_isSome (env : Env) (conn : Conn) :
    (handle_connection env conn).isSome := by
  unfold handle_connection
  dsimp only
  split_ifs
  · rfl
  · exact handle_request_isSome env _ _
  · exact handle_request_isSome env _ _

/-! ## Claim C11: the error responses of `sendHTML` -/

theorem bytes_of_append (a b : String) : bytes_of (a ++ b) = bytes_of a ++ bytes_of b := by
  simp [bytes_of, String.toList]

theorem fmt_d_natCast (k : Nat) : fmt_d (k : Int) = bytes_of (toString k) := rfl

theorem snprintf_fits (size : Nat) (text : List Nat) (h : text.length < size) :
    snprintf size text = (text, (text.length : Int)) := by
  unfold snprintf
  rw [List.take_of_length_le (by omega)]

theorem read_array_all (stored : List Nat) : read_array stored stored.length = some stored := by
  simp [read_array]

/-- The loop of `sendAll` hands the socket a prefix of the bytes it is given,
all of them when it returns 0, and returns 0 or -1. -/
theorem sendAll_prefix :
    ∀ (events : List SendResult) (buf : List Nat) (rc : Int) (out : List Nat)
      (rest : List SendResult), sendAll events buf = some (rc, out, rest) →
      out <+: buf ∧ (rc = 0 → out = buf) ∧ (rc = 0 ∨ rc = -1) := by
  intro events
  induction events with
  | nil =>
    intro buf rc out rest h
    cases buf with
    | nil =>
      simp only [sendAll, Option.some.injEq, Prod.mk.injEq] at h
      obtain ⟨rfl, rfl, _⟩ := h
      simp
    | cons b bs => simp [sendAll] at h
  | cons e events ih =>
    intro buf rc out rest h
    cases buf with
    | nil =>
      simp only [sendAll, Option.some.injEq, Prod.mk.injEq] at h
      obtain ⟨rfl, rfl, _⟩ := h
      simp
    | cons b bs =>
      cases e with
      | sent n =>
        simp only [sendAll] at h
        split at h
        · cases h
        · next rc1 out1 rest1 h1 =>
          simp only [Option.some.injEq, Prod.mk.injEq] at h
          obtain ⟨rfl, rfl, _⟩ := h
          obtain ⟨p1, p2, p3⟩ := ih _ _ _ _ h1
          refine ⟨?_, ?_, p3⟩
          · have := (List.prefix_append_right_inj ((b :: bs).take n)).mpr p1
            rwa [List.take_append_drop] at this
          · intro h0
            rw [p2 h0, List.take_append_drop]
      | eintr =>
        simp only [sendAll] at h
        exact ih _ _ _ _ h
      | error =>
        simp only [sendAll, Option.some.injEq, Prod.mk.injEq] at h
        obtain ⟨rfl, rfl, _⟩ := h
        simp

theorem sendAll_sent_all (events : List SendResult) (buf : List Nat) (n : Nat)
    (hne : buf ≠ []) (hn : buf.length ≤ n) :
    sendAll (.sent n :: events) buf = some (0, buf, events) := by
  cases buf with
  | nil => exact absurd rfl hne
  | cons b bs =>
    simp only [sendAll, List.drop_of_length_le hn, List.take_of_length_le hn, List.append_nil]

/-- When the body and the header fit their 256-byte buffers, `sendHTML` is
`sendAll` of the whole header followed by `sendAll` of the whole body. -/
theorem sendHTML_of_fits (events : List SendResult) (status_line title : List Nat)
    (body hdr : List Nat)
    (hbody : body = bytes_of "<html><body><h1>" ++ title ++ bytes_of "</h1></body></html>")
    (hhdr : hdr = bytes_of "HTTP/1.0 " ++ status_line ++ bytes_of "\r\n" ++
        bytes_of "Content-Length: " ++ bytes_of (toString body.length) ++ bytes_of "\r\n" ++
        bytes_of "Content-Type: text/html\r\n" ++ bytes_of "\r\n")
    (hb : body.length < 256) (hh : hdr.length < 256) :
    sendHTML events status_line title =
      match sendAll events hdr with
      | none => none
      | some (rc1, out1, rest1) =>
        if rc1 < 0 then some (-1, out1, rest1)
        else
          match sendAll rest1 body with
          | none => none
          | some (rc2, out2, rest2) =>
            if rc2 < 0 then some (-1, out1 ++ out2, rest2)
            else some (0, out1 ++ out2, rest2) := by
  unfold sendHTML
  rw [← hbody, snprintf_fits 256 body hb]
  dsimp only
  rw [fmt_d_natCast, ← hhdr, snprintf_fits 256 hdr hh]
  dsimp only
  have h1 : ¬ ((body.length : Int) < 0) := by omega
  have h2 : ¬ ((hdr.length : Int) < 0) := by omega
  simp only [h1, h2, if_false, Int.toNat_ofNat, read_array_all]

theorem spec_error_texts (S : String) :
    spec_error_body S = bytes_of "<html><body><h1>" ++ bytes_of S ++
        bytes_of "</h1></body></html>" ∧
    spec_error_header S = bytes_of "HTTP/1.0 " ++ bytes_of S ++ bytes_of "\r\n" ++
        bytes_of "Content-Length: " ++ bytes_of (toString (spec_error_body S).length) ++
        bytes_of "\r\n" ++ bytes_of "Content-Type: text/html\r\n" ++ bytes_of "\r\n" := by
  constructor
  · simp only [spec_error_body, bytes_of_append]
  · unfold spec_error_header
    have e1 : "\r\nContent-Length: " = "\r\n" ++ "Content-Length: " := by decide
    have e2 : "\r\nContent-Type: text/html\r\n\r\n" =
        "\r\n" ++ "Content-Type: text/html\r\n" ++ "\r\n" := by decide
    rw [e1, e2]
    simp only [bytes_of_append, List.append_assoc]

theorem spec_error_lengths (S : String) (hS : S ∈ error_statuses) :
    (spec_error_body S).length < 256 ∧ (spec_error_header S).length < 256 ∧
      spec_error_body S ≠ [] ∧ spec_error_header S ≠ [] := by
  simp only [error_statuses, List.mem_cons, List.mem_singleton, List.not_mem_nil,
    or_false] at hS
  rcases hS with rfl | rfl | rfl | rfl <;> decide

/-- C11: for each error status `S` the server uses, the header and the body
`sendHTML(S, S)` formats fit their 256-byte buffers; the bytes it hands to the
socket are always a prefix of `HTTP/1.0 S`, `Content-Length: N`,
`Content-Type: text/html`, a blank line and the body
`<html><body><h1>S</h1></body></html>`, with `N` the decimal byte count of
that body, and are exactly these bytes when it returns 0; and it returns 0
when the socket takes what it is offered. -/
theorem sendHTML_error_status (S : String) (hS : S ∈ error_statuses)
    (events : List SendResult) :
    (spec_error_body S).length < 256 ∧ (spec_error_header S).length < 256 ∧
    (∀ rc out rest, sendHTML events (bytes_of S) (bytes_of S) = some (rc, out, rest) →
      out <+: spec_error_header S ++ spec_error_body S ∧
      (rc = 0 → out = spec_error_header S ++ spec_error_body S)) ∧
    (∀ n m, (spec_error_header S).length ≤ n → (spec_error_body S).length ≤ m →
      sendHTML (.sent n :: .sent m :: events) (bytes_of S) (bytes_of S) =
        some (0, spec_error_header S ++ spec_error_body S, events)) := by
  obtain ⟨hb, hh, hbne, hhne⟩ := spec_error_lengths S hS
  obtain ⟨tb, th⟩ := spec_error_texts S
  have hfit := fun ev => sendHTML_of_fits ev (bytes_of S) (bytes_of S)
    (spec_error_body S) (spec_error_header S) tb th hb hh
  refine ⟨hb, hh, ?_, ?_⟩
  · intro rc out rest h
    rw [hfit events] at h
    split at h
    · cases h
    · next rc1 out1 rest1 h1 =>
      obtain ⟨p1, q1, r1⟩ := sendAll_prefix _ _ _ _ _ h1
      split_ifs at h with hneg
      · simp only [Option.some.injEq, Prod.mk.injEq] at h
        obtain ⟨rfl, rfl, _⟩ := h
        exact ⟨p1.trans (List.prefix_append _ _), fun h0 => by omega⟩
      · have hrc1 : rc1 = 0 := by omega
        have hout1 := q1 hrc1
        split at h
        · cases h
        · next rc2 out2 rest2 h2 =>
          obtain ⟨p2, q2, r2⟩ := sendAll_prefix _ _ _ _ _ h2
          have hpre : out1 ++ out2 <+: spec_error_header S ++ spec_error_body S := by
            rw [hout1]
            exact (List.prefix_append_right_inj _).mpr p2
          split_ifs at h with hneg2
          · simp only [Option.some.injEq, Prod.mk.injEq] at h
            obtain ⟨rfl, rfl, _⟩ := h
            exact ⟨hpre, fun h0 => by omega⟩
          · simp only [Option.some.injEq, Prod.mk.injEq] at h
            obtain ⟨_, rfl, _⟩ := h
            have hrc2 : rc2 = 0 := by omega
            exact ⟨hpre, fun _ => by rw [hout1, q2 hrc2]⟩
  · intro n m hn hm
    rw [hfit, sendAll_sent_all _ _ n hhne hn]
    dsimp only
    rw [if_neg (by decide), sendAll_sent_all _ _ m hbne hm]
    dsimp only
    rw [if_neg (by decide)]

theorem sendHTML_error_status_witness :
    (spec_error_body "404 Not Found").length < 256 ∧
    (spec_error_header "404 Not Found").length < 256 ∧
    (∀ rc out rest,
      sendHTML [.sent 10, .eintr, .sent 70, .sent 50] (bytes_of "404 Not Found")
          (bytes_of "404 Not Found") = some (rc, out, rest) →
        out <+: spec_error_header "404 Not Found" ++ spec_error_body "404 Not Found" ∧
        (rc = 0 → out = spec_error_header "404 Not Found" ++ spec_error_body "404 Not Found")) ∧
    (∀ n m, (spec_error_header "404 Not Found").length ≤ n →
      (spec_error_body "404 Not Found").length ≤ m →
      sendHTML (.sent n :: .sent m :: [.sent 10, .eintr, .sent 70, .sent 50])
          (bytes_of "404 Not Found") (bytes_of "404 Not Found") =
        some (0, spec_error_header "404 Not Found" ++ spec_error_body "404 Not Found",
          [.sent 10, .eintr, .sent 70, .sent 50])) :=
  sendHTML_error_status "404 Not Found" (by decide) [.sent 10, .eintr, .sent 70, .sent 50]

/-- The four error responses, byte for byte, as a socket that takes what it
is offered receives them. -/
theorem sendHTML_error_responses :
    sendHTML [.sent 256, .sent 256] (bytes_of "400 Bad Request") (bytes_of "400 Bad Request") =
      some (0, bytes_of ("HTTP/1.0 400 Bad Request\r\nContent-Length: 50\r\n" ++
        "Content-Type: text/html\r\n\r\n<html><body><h1>400 Bad Request</h1></body></html>"),
        []) ∧
    sendHTML [.sent 256, .sent 256] (bytes_of "404 Not Found") (bytes_of "404 Not Found") =
      some (0, bytes_of ("HTTP/1.0 404 Not Found\r\nContent-Length: 48\r\n" ++
        "Content-Type: text/html\r\n\r\n<html><body><h1>404 Not Found</h1></body></html>"),
        []) ∧
    sendHTML [.sent 256, .sent 256] (bytes_of "408 Request Timeout")
        (bytes_of "408 Request Timeout") =
      some (0, bytes_of ("HTTP/1.0 408 Request Timeout\r\nContent-Length: 54\r\n" ++
        "Content-Type: text/html\r\n\r\n<html><body><h1>408 Request Timeout</h1></body></html>"),
        []) ∧
    sendHTML [.sent 256, .sent 256] (bytes_of "501 Not Implemented")
        (bytes_of "501 Not Implemented") =
      some (0, bytes_of ("HTTP/1.0 501 Not Implemented\r\nContent-Length: 54\r\n" ++
        "Content-Type: text/html\r\n\r\n<html><body><h1>501 Not Implemented</h1></body></html>"),
        []) := by
  decide

/-! ## Claim C12: the header loop -/

/-- A chunk without a line feed that fills the buffer is returned as a line
of its own: `recv_line` stops at the cap, not at a CRLF. -/
theorem recv_line_loop_fill (bufsize : Nat) (closes : Bool) (rest : List Nat) :
    ∀ (chunk buf : List Nat), buf.length + chunk.length + 1 = bufsize →
      (∀ b ∈ chunk, b ≠ '\n'.toNat) →
      recv_line_loop bufsize closes (chunk ++ rest) buf =
        (((buf ++ chunk).length : Int), buf ++ chunk, rest) := by
  intro chunk
  induction chunk with
  | nil =>
    intro buf hlen _
    have hg : ¬ buf.length + 1 < bufsize := by simp at hlen; omega
    cases rest with
    | nil => simp [recv_line_loop, hg]
    | cons c r => simp [recv_line_loop, hg]
  | cons c cs ih =>
    intro buf hlen hlf
    have hg : buf.length + 1 < bufsize := by simp at hlen; omega
    have hc : c ≠ '\n'.toNat := hlf c (by simp)
    have hlast : (buf ++ [c]).getD ((buf ++ [c]).length - 1) 0 = c := by
      rw [List.length_append, List.length_singleton, Nat.add_sub_cancel,
        List.getD_append_right _ _ _ _ (le_refl _)]
      simp
    have hcheck : ¬ ((buf ++ [c]).length ≥ 2 ∧
        (buf ++ [c]).getD ((buf ++ [c]).length - 2) 0 = '\r'.toNat ∧
        (buf ++ [c]).getD ((buf ++ [c]).length - 1) 0 = '\n'.toNat) := by
      rintro ⟨_, _, h⟩
      exact hc (hlast ▸ h)
    have hrec := ih (buf ++ [c]) (by simp at hlen ⊢; omega)
      (fun b hb => hlf b (List.mem_cons_of_mem c hb))
    rw [List.cons_append, recv_line_loop, if_pos hg]
    dsimp only
    rw [if_neg hcheck, hrec]
    simp

/-- A CRLF at the front of what the peer sends is read as a blank line and
ends the header loop. -/
theorem drain_headers_crlf (fuel : Nat) (rest : List Nat) (closes : Bool) :
    drain_headers (fuel + 1) ⟨'\r'.toNat :: '\n'.toNat :: rest, closes⟩ =
      some (true, ⟨rest, closes⟩) := by
  simp [drain_headers, recv_line, recv_line_loop]

/-- A header line of 2047 bytes without a line feed fills the buffer of
`recv_line`; the CRLF that ends it is then read alone and taken for the
blank line, whatever follows. -/
theorem drain_headers_after_full_chunk (fuel : Nat) (chunk rest : List Nat) (closes : Bool)
    (hlen : chunk.length = 2047) (hlf : ∀ b ∈ chunk, b ≠ '\n'.toNat) :
    drain_headers (fuel + 2) ⟨chunk ++ '\r'.toNat :: '\n'.toNat :: rest, closes⟩ =
      some (true, ⟨rest, closes⟩) := by
  have h1 := recv_line_loop_fill 2048 closes ('\r'.toNat :: '\n'.toNat :: rest) chunk []
    (by simp [hlen]) hlf
  rw [drain_headers]
  simp only [recv_line, h1, List.nil_append, hlen]
  have hpos : ¬ (((2047 : Nat) : Int) ≤ 0) := by decide
  have hblank : ¬ (((2047 : Nat) : Int) = 2 ∧ chunk.getD 0 0 = '\r'.toNat ∧
      chunk.getD 1 0 = '\n'.toNat) := fun h => absurd h.1 (by decide)
  rw [if_neg hpos, if_neg hblank]
  exact drain_headers_crlf fuel rest closes

/-- A line without a line feed that fits the buffer with its CRLF is read
whole, CRLF included, and nothing after it is read. -/
theorem recv_line_loop_line (bufsize : Nat) (closes : Bool) (rest : List Nat) :
    ∀ (line buf : List Nat), buf.length + line.length + 2 < bufsize →
      (∀ b ∈ line, b ≠ '\n'.toNat) →
      recv_line_loop bufsize closes (line ++ '\r'.toNat :: '\n'.toNat :: rest) buf =
        (((buf ++ line ++ ['\r'.toNat, '\n'.toNat]).length : Int),
          buf ++ line ++ ['\r'.toNat, '\n'.toNat], rest) := by
  intro line
  induction line with
  | nil =>
    intro buf hlen _
    have hg1 : buf.length + 1 < bufsize := by simp at hlen; omega
    have hg2 : (buf ++ ['\r'.toNat]).length + 1 < bufsize := by simp at hlen ⊢; omega
    have hlast1 : (buf ++ ['\r'.toNat]).getD ((buf ++ ['\r'.toNat]).length - 1) 0 =
        '\r'.toNat := by
      rw [List.length_append, List.length_singleton, Nat.add_sub_cancel,
        List.getD_append_right _ _ _ _ (le_refl _)]
      simp
    have hcheck1 : ¬ ((buf ++ ['\r'.toNat]).length ≥ 2 ∧
        (buf ++ ['\r'.toNat]).getD ((buf ++ ['\r'.toNat]).length - 2) 0 = '\r'.toNat ∧
        (buf ++ ['\r'.toNat]).getD ((buf ++ ['\r'.toNat]).length - 1) 0 = '\n'.toNat) := by
      rintro ⟨_, _, h⟩
      rw [hlast1] at h
      exact absurd h (by decide)
    have hcheck2 : (buf ++ ['\r'.toNat] ++ ['\n'.toNat]).length ≥ 2 ∧
        (buf ++ ['\r'.toNat] ++ ['\n'.toNat]).getD
          ((buf ++ ['\r'.toNat] ++ ['\n'.toNat]).length - 2) 0 = '\r'.toNat ∧
        (buf ++ ['\r'.toNat] ++ ['\n'.toNat]).getD
          ((buf ++ ['\r'.toNat] ++ ['\n'.toNat]).length - 1) 0 = '\n'.toNat := by
      have e : buf ++ ['\r'.toNat] ++ ['\n'.toNat] = buf ++ ['\r'.toNat, '\n'.toNat] := by simp
      have l2 : (buf ++ ['\r'.toNat, '\n'.toNat]).length - 2 = buf.length := by simp
      have l1 : (buf ++ ['\r'.toNat, '\n'.toNat]).length - 1 = buf.length + 1 := by simp
      rw [e, l2, l1]
      refine ⟨by simp, ?_, ?_⟩
      · rw [List.getD_append_right _ _ _ _ (le_refl _)]; simp
      · rw [List.getD_append_right _ _ _ _ (by omega)]; simp
    rw [List.nil_append, recv_line_loop, if_pos hg1]
    dsimp only
    rw [if_neg hcheck1, recv_line_loop, if_pos hg2]
    dsimp only
    rw [if_pos hcheck2]
    simp
  | cons c cs ih =>
    intro buf hlen hlf
    have hg : buf.length + 1 < bufsize := by simp at hlen; omega
    have hc : c ≠ '\n'.toNat := hlf c (by simp)
    have hlast : (buf ++ [c]).getD ((buf ++ [c]).length - 1) 0 = c := by
      rw [List.length_append, List.length_singleton, Nat.add_sub_cancel,
        List.getD_append_right _ _ _ _ (le_refl _)]
      simp
    have hcheck : ¬ ((buf ++ [c]).length ≥ 2 ∧
        (buf ++ [c]).getD ((buf ++ [c]).length - 2) 0 = '\r'.toNat ∧
        (buf ++ [c]).getD ((buf ++ [c]).length - 1) 0 = '\n'.toNat) := by
      rintro ⟨_, _, h⟩
      exact hc (hlast ▸ h)
    have hrec := ih (buf ++ [c]) (by simp at hlen ⊢; omega)
      (fun b hb => hlf b (List.mem_cons_of_mem c hb))
    rw [List.cons_append, recv_line_loop, if_pos hg]
    dsimp only
    rw [if_neg hcheck, hrec]
    simp

/-- What does hold of the header loop: when every header line is non-empty,
holds no line feed and is at most 2045 bytes long, so that it fits the buffer
with its CRLF, the loop ends exactly at the first line that is a CRLF alone
and leaves what follows it unread. -/
theorem drain_headers_short_lines (closes : Bool) (rest : List Nat) :
    ∀ (lines : List (List Nat)) (fuel : Nat), lines.length < fuel →
      (∀ l ∈ lines, l ≠ [] ∧ l.length ≤ 2045 ∧ ∀ b ∈ l, b ≠ '\n'.toNat) →
      drain_headers fuel
          ⟨(lines.map (fun l => l ++ ['\r'.toNat, '\n'.toNat])).flatten ++
            '\r'.toNat :: '\n'.toNat :: rest, closes⟩ =
        some (true, ⟨rest, closes⟩) := by
  intro lines
  induction lines with
  | nil =>
    intro fuel hf _
    obtain ⟨k, rfl⟩ : ∃ k, fuel = k + 1 := ⟨fuel - 1, by simp at hf; omega⟩
    exact drain_headers_crlf k rest closes
  | cons l ls ih =>
    intro fuel hf h
    obtain ⟨k, rfl⟩ : ∃ k, fuel = k + 1 := ⟨fuel - 1, by omega⟩
    obtain ⟨hne, hlen, hlf⟩ := h l (by simp)
    have hrest := ih k (by simp at hf; omega) (fun x hx => h x (List.mem_cons_of_mem l hx))
    have h1 := recv_line_loop_line 2048 closes
      ((ls.map (fun l => l ++ ['\r'.toNat, '\n'.toNat])).flatten ++
        '\r'.toNat :: '\n'.toNat :: rest) l [] (by simp; omega) hlf
    have e : ((l :: ls).map (fun l => l ++ ['\r'.toNat, '\n'.toNat])).flatten ++
        '\r'.toNat :: '\n'.toNat :: rest =
        l ++ '\r'.toNat :: '\n'.toNat ::
          ((ls.map (fun l => l ++ ['\r'.toNat, '\n'.toNat])).flatten ++
            '\r'.toNat :: '\n'.toNat :: rest) := by
      simp
    have hpos : 0 < l.length := List.length_pos.mpr hne
    have hn1 : ¬ ((([] ++ l ++ ['\r'.toNat, '\n'.toNat]).length : Int) ≤ 0) := by
      have h3 : ([] ++ l ++ ['\r'.toNat, '\n'.toNat]).length = l.length + 2 := by simp
      rw [h3]
      omega
    have hn2 : ¬ ((([] ++ l ++ ['\r'.toNat, '\n'.toNat]).length : Int) = 2 ∧
        ([] ++ l ++ ['\r'.toNat, '\n'.toNat]).getD 0 0 = '\r'.toNat ∧
        ([] ++ l ++ ['\r'.toNat, '\n'.toNat]).getD 1 0 = '\n'.toNat) := by
      rintro ⟨h2, _⟩
      have h3 : ([] ++ l ++ ['\r'.toNat, '\n'.toNat]).length = l.length + 2 := by simp
      rw [h3] at h2
      omega
    rw [e, drain_headers]
    simp only [recv_line, h1]
    rw [if_neg hn1, if_neg hn2]
    exact hrest

/-- A header line of 2046 bytes without a line feed and the carriage return
that ends it fill the buffer of `recv_line`; the line feed is then read
together with the blank line that follows, which is therefore not seen, and
the loop ends on the failed read after it. -/
theorem drain_headers_after_split_crlf (fuel : Nat) (chunk : List Nat)
    (hlen : chunk.length = 2046) (hlf : ∀ b ∈ chunk, b ≠ '\n'.toNat) :
    drain_headers (fuel + 3)
        ⟨chunk ++ ['\r'.toNat, '\n'.toNat, '\r'.toNat, '\n'.toNat], false⟩ =
      some (false, ⟨[], false⟩) := by
  have h1 := recv_line_loop_fill 2048 false ['\n'.toNat, '\r'.toNat, '\n'.toNat]
    (chunk ++ ['\r'.toNat]) [] (by simp [hlen])
    (fun b hb => by
      rcases List.mem_append.mp hb with h | h
      · exact hlf b h
      · rw [List.mem_singleton.mp h]; decide)
  have e : chunk ++ ['\r'.toNat, '\n'.toNat, '\r'.toNat, '\n'.toNat] =
      (chunk ++ ['\r'.toNat]) ++ ['\n'.toNat, '\r'.toNat, '\n'.toNat] := by
    simp
  have hl : ((([] : List Nat) ++ (chunk ++ ['\r'.toNat])).length : Int) = 2047 := by
    simp [hlen]
  rw [e, drain_headers]
  simp only [recv_line, h1, hl]
  have hpos : ¬ ((2047 : Int) ≤ 0) := by decide
  have hblank : ¬ ((2047 : Int) = 2 ∧
      (([] : List Nat) ++ (chunk ++ ['\r'.toNat])).getD 0 0 = '\r'.toNat ∧
      (([] : List Nat) ++ (chunk ++ ['\r'.toNat])).getD 1 0 = '\n'.toNat) :=
    fun h => absurd h.1 (by decide)
  rw [if_neg hpos, if_neg hblank]
  simp [drain_headers, recv_line, recv_line_loop]

/-- A complete request whose header line is 2046 bytes long is answered
408 Request Timeout: the blank line that ends it is not seen. -/
theorem handle_request_after_split_crlf (env : Env) (chunk : List Nat)
    (hlen : chunk.length = 2046) (hlf : ∀ b ∈ chunk, b ≠ '\n'.toNat) :
    handle_request env (bytes_of "GET / HTTP/1.0")
        ⟨chunk ++ ['\r'.toNat, '\n'.toNat, '\r'.toNat, '\n'.toNat], false⟩ =
      some ⟨some "408 Request Timeout", none, none⟩ := by
  have hreq : sscanf_reqline (bytes_of "GET / HTTP/1.0") =
      ⟨3, bytes_of "GET", bytes_of "/", bytes_of "HTTP/1.0"⟩ := by decide
  have hfuel : (chunk ++ ['\r'.toNat, '\n'.toNat, '\r'.toNat, '\n'.toNat]).length + 1 =
      2048 + 3 := by simp [hlen]
  unfold handle_request
  simp only [hreq, hfuel, drain_headers_after_split_crlf 2048 chunk hlen hlf]
  rw [if_neg (by decide), if_neg (by decide)]

/-- C12 (the code at the failing input): after a header line of 2047 bytes
`a`, the header `Host: x` and the blank line, the loop reports the blank line
as seen when it has read only the first line and its CRLF: the header
`Host: x` and the real blank line are left unread.  And after a header line
of 2046 bytes `a` and the blank line, the loop reads past the blank line and
ends on the failed read that follows, so that this complete request is
answered 408 Request Timeout. -/
theorem drain_headers_long_line :
    drain_headers 2061
        ⟨List.replicate 2047 'a'.toNat ++ bytes_of "\r\nHost: x\r\n\r\n", true⟩ =
      some (true, ⟨bytes_of "Host: x\r\n\r\n", true⟩) ∧
    drain_headers 2051 ⟨List.replicate 2046 'a'.toNat ++ bytes_of "\r\n\r\n", false⟩ =
      some (false, ⟨[], false⟩) ∧
    handle_request sample_env (bytes_of "GET / HTTP/1.0")
        ⟨List.replicate 2046 'a'.toNat ++ bytes_of "\r\n\r\n", false⟩ =
      some ⟨some "408 Request Timeout", none, none⟩ :=
  ⟨drain_headers_after_full_chunk 2059 (List.replicate 2047 'a'.toNat)
      (bytes_of "Host: x\r\n\r\n") true (List.length_replicate _ _)
      (fun b hb => by rw [List.eq_of_mem_replicate hb]; decide),
    drain_headers_after_split_crlf 2048 (List.replicate 2046 'a'.toNat)
      (List.length_replicate _ _)
      (fun b hb => by rw [List.eq_of_mem_replicate hb]; decide),
    handle_request_after_split_crlf sample_env (List.replicate 2046 'a'.toNat)
      (List.length_replicate _ _)
      (fun b hb => by rw [List.eq_of_mem_replicate hb]; decide)⟩

end HttpServer
